import Mathlib

/-!
Verification development for the poor-trader indicator engine
(src/poor_trader/screening/indicator.py).

The Python source is shallowly embedded: pandas date-indexed frames become
lists of optional rationals (a missing / NaN cell is `none`), the pickle
store becomes a map from paths to frames, and every indicator runner is
translated into an executable Lean function following the source line by
line.
-/

namespace PoorTrader

/-! ### Rounding

Modelled from the spec: the repository module poor_trader.utils (not part
of the sources given) provides roundn / round_df, which round numeric
outputs to a fixed decimal precision before results are returned.  We
model them as round-half-to-even (the rounding used by python / numpy)
at a fixed precision of 4 decimals, matching the roundn(..., 4) calls
visible in indicator.py. -/

/-- Round-half-to-even of a rational to an integer, as python's builtin
round and numpy rounding behave. -/
def pyRound (q : ℚ) : ℤ :=
  if q - (⌊q⌋ : ℚ) < 1/2 then ⌊q⌋
  else if 1/2 < q - (⌊q⌋ : ℚ) then ⌊q⌋ + 1
  else if ⌊q⌋ % 2 = 0 then ⌊q⌋ else ⌊q⌋ + 1

/-- Round a rational to `n` decimal places, half-to-even. -/
def pyRoundn (n : ℕ) (q : ℚ) : ℚ := (pyRound (q * 10 ^ n) : ℚ) / 10 ^ n

/-- The fixed precision applied by round_df / roundn in the source. -/
def roundn4 : ℚ → ℚ := pyRoundn 4

/-! ### Decimal rendering of naturals

Python's str(n) for a non-negative int, used by the '{}'.format(...) calls
that build unique names and the SMA{n} column labels. -/

/-- Decimal digits of a natural number, most significant first. -/
def natChars (n : ℕ) : List Char :=
  if h : n < 10 then [Nat.digitChar n]
  else natChars (n / 10) ++ [Nat.digitChar (n % 10)]
termination_by n
decreasing_by exact Nat.div_lt_self (by omega) (by norm_num)

/-- Python str() of a natural number. -/
def natStr (n : ℕ) : String := ⟨natChars n⟩

/-! ### Data model: frames, columns, direction -/

/-- Modelled from the spec: entity.Direction, the categorical signal with
values LONG and SHORT, the empty string standing for no signal. -/
inductive Dir where
  | LONG
  | SHORT
  | NONE
deriving DecidableEq, Repr

/-- One named column of a pandas frame: numeric cells (a NaN cell is
none) or categorical Direction cells. -/
inductive Column where
  | nums (vals : List (Option ℚ))
  | dirs (vals : List Dir)
deriving DecidableEq, Repr

/-- A date-indexed pandas DataFrame: its index and its named columns in
insertion order. -/
structure Frame where
  index : List ℕ
  cols : List (String × Column)
deriving DecidableEq, Repr

/-- Numeric column lookup (df[name] when the column holds numbers). -/
def getNums (fr : Frame) (name : String) : Option (List (Option ℚ)) :=
  match fr.cols.lookup name with
  | some (Column.nums vs) => some vs
  | _ => none

/-- Column presence test. -/
def hasCol (fr : Frame) (name : String) : Bool := (fr.cols.lookup name).isSome

/-- df_quotes[field]: the numeric column of that name.  Python would raise
KeyError on a missing column; the claims below only evaluate runs on
frames that carry the accessed column, so the default branch (a column of
NaNs) is never exercised there. -/
def fieldCol (q : Frame) (f : String) : List (Option ℚ) :=
  (getNums q f).getD (List.replicate q.index.length none)

/-- Elementwise greater-than with pandas NaN semantics: any comparison
involving NaN is False. -/
def oGtB (a b : Option ℚ) : Bool :=
  match a, b with
  | some x, some y => decide (y < x)
  | _, _ => false

/-- Elementwise less-than with NaN semantics. -/
def oLtB (a b : Option ℚ) : Bool :=
  match a, b with
  | some x, some y => decide (x < y)
  | _, _ => false

/-- Elementwise less-or-equal with NaN semantics. -/
def oLeB (a b : Option ℚ) : Bool :=
  match a, b with
  | some x, some y => decide (x ≤ y)
  | _, _ => false

/-- Elementwise greater-or-equal with NaN semantics. -/
def oGeB (a b : Option ℚ) : Bool :=
  match a, b with
  | some x, some y => decide (y ≤ x)
  | _, _ => false

/-- IndicatorRunner.add_direction: np.where(long, LONG, np.where(short,
SHORT, '')). -/
def addDirection (longs shorts : List Bool) : List Dir :=
  List.zipWith (fun l s => if l then Dir.LONG else if s then Dir.SHORT else Dir.NONE)
    longs shorts

/-- round_df lifted to a column: numeric cells are rounded to the fixed
precision, the Direction column is untouched. -/
def roundCol : Column → Column
  | .nums vs => .nums (vs.map (Option.map roundn4))
  | .dirs vs => .dirs vs

/-- Modelled from the spec: utils.round_df, rounding every numeric output
column of a frame to the fixed decimal precision. -/
def round_df (fr : Frame) : Frame :=
  { index := fr.index, cols := fr.cols.map (fun nc => (nc.1, roundCol nc.2)) }

/-- IndicatorRunner.is_updated: the cached result exists and its index
equals the quote index (pd.Index.equals). -/
def is_updated (q : Frame) (dfIndicator : Option Frame) : Bool :=
  match dfIndicator with
  | none => false
  | some fr => decide (q.index = fr.index)

/-- The body of every runner's run method starts with an is_updated
check returning the passed df_indicator unchanged when it is fresh. -/
def runGuard (q : Frame) (cached : Option Frame) (body : Frame) : Frame :=
  match cached with
  | some c => if q.index = c.index then c else body
  | none => body

/-! ### Unique names (the runner __init__ format strings) -/

def uniqueSMA (p : ℕ) (f : String) : String := "sma_" ++ f ++ "_" ++ natStr p

def uniqueEMA (p : ℕ) (f : String) : String := "ema_" ++ f ++ "_" ++ natStr p

def uniqueSTDEV (p : ℕ) (f : String) : String := "stdev_" ++ f ++ "_" ++ natStr p

def uniqueATR (p : ℕ) : String := "atr_" ++ natStr p

def uniqueTrailingStops (m p : ℕ) : String :=
  "trailing_stops_" ++ natStr m ++ "_" ++ natStr p

def uniqueMACD (fast slow signal : ℕ) : String :=
  "macd_" ++ natStr fast ++ "_" ++ natStr slow ++ "_" ++ natStr signal

def uniqueTrendStrength (start stop step : ℕ) : String :=
  "trend_strength_" ++ natStr start ++ "_" ++ natStr stop ++ "_" ++ natStr step

def uniqueRSI (p : ℕ) (f : String) : String := "rsi_" ++ f ++ "_" ++ natStr p

/-! ### The pickle store, factories and the caching wrapper -/

/-- Modelled from the spec: config.PICKLE_EXTENSION, the cache file
suffix used in root/<uniqueName>/<symbol>.<ext>. -/
def pickleExtension : String := "pickle"

/-- The per-symbol cache file name '{}.{}'.format(symbol, ext). -/
def symFile (sym : String) : String := sym ++ "." ++ pickleExtension

/-- A storage path, as the list of its components. -/
abbrev Path' : Type := List String

/-- The persisted pickle store: a map from paths to frames. -/
def Store : Type := Path' → Option Frame

/-- The empty store. -/
def emptyStore : Store := fun _ => none

/-- Writing one entry of the store (df.to_pickle overwriting the file). -/
def insertStore (st : Store) (path : Path') (fr : Frame) : Store :=
  fun p => if p = path then some fr else st p

/-- The two runner-factory variants: IndicatorRunnerFactory (plain) and
PickleIndicatorRunnerFactory (bound to a storage root). -/
inductive Factory where
  | plain
  | pickle (root : Path')
deriving DecidableEq

/-- PickleIndicatorRunnerWrapper.update: reuse the passed df_indicator
when fresh, else delegate to the wrapped runner and persist the result at
the wrapper's save path. -/
def wrapperUpdate (q : Frame) (path : Path')
    (inner : Store → Option Frame → Frame × Store)
    (store : Store) (cached : Option Frame) : Frame × Store :=
  match cached with
  | some c =>
      if q.index = c.index then (c, store)
      else
        let r := inner store (some c)
        (r.1, insertStore r.2 path r.1)
  | none =>
      let r := inner store none
      (r.1, insertStore r.2 path r.1)

/-- PickleIndicatorRunnerWrapper.run: load an existing cache entry if the
file exists, then update. -/
def wrapperRun (q : Frame) (path : Path')
    (inner : Store → Option Frame → Frame × Store)
    (store : Store) (cached : Option Frame) : Frame × Store :=
  match store path with
  | some loaded => wrapperUpdate q path inner store (some loaded)
  | none => wrapperUpdate q path inner store cached

/-! ### SMA -/

/-- A window as a NaN-free list: none as soon as any cell is NaN. -/
def seqOpt : List (Option ℚ) → Option (List ℚ)
  | [] => some []
  | none :: _ => none
  | some x :: rest => (seqOpt rest).map (x :: ·)

/-- pandas Series.rolling(p).mean(): defined at position i iff the
trailing window of p cells is complete and NaN-free, and then equal to
the arithmetic mean of the window. -/
def rollingMean (p : ℕ) (xs : List (Option ℚ)) : List (Option ℚ) :=
  (List.range xs.length).map fun i =>
    if i + 1 < p then none
    else (seqOpt ((xs.drop (i + 1 - p)).take p)).map (fun w => w.sum / (p : ℚ))

/-- SMA.run after the is_updated guard (period, field as in __init__). -/
def SMA_core (q : Frame) (p : ℕ) (f : String) : Frame :=
  let xs := fieldCol q f
  let sma := rollingMean p xs
  round_df
    { index := q.index
      cols := [("SMA", .nums sma),
               ("Direction", .dirs (addDirection (List.zipWith oGtB xs sma)
                                                 (List.zipWith oLtB xs sma)))] }

/-- SMA.run including the is_updated guard; SMA creates no dependencies,
so factory and store pass through untouched. -/
def SMA_runF (store : Store) (q : Frame) (p : ℕ) (f : String)
    (cached : Option Frame) : Frame × Store :=
  (runGuard q cached (SMA_core q p f), store)

/-- factory.create(SMA, period, field) followed by .run(symbol, quotes):
the plain factory returns the bare runner, the caching factory wraps it
and stores results under root/<unique name>/<symbol>. -/
def SMA_create (fac : Factory) (p : ℕ) (f : String) (store : Store)
    (sym : String) (q : Frame) (cached : Option Frame) : Frame × Store :=
  match fac with
  | .plain => SMA_runF store q p f cached
  | .pickle root =>
      wrapperRun q (root ++ [uniqueSMA p f, symFile sym])
        (fun st ci => SMA_runF st q p f ci) store cached

/-! ### EMA -/

/-- First non-NaN cell of a column with its position: what
_sma.dropna().index.values[0] / .SMA.values[0] observe. -/
def firstSomePair : List (Option ℚ) → Option (ℕ × ℚ)
  | [] => none
  | some v :: _ => some (0, v)
  | none :: rest => (firstSomePair rest).map (fun iv => (iv.1 + 1, iv.2))

/-- The EMA recurrence loop of EMA.run: the cell at the seed position
holds the seed, earlier cells stay NaN, and each later cell is
c*price + (1-c)*prev, NaN as soon as prev or price is NaN. -/
def EMA_raw (c : ℚ) (xs : List (Option ℚ)) (seedPos : ℕ) (seedVal : ℚ) : ℕ → Option ℚ
  | 0 => if seedPos = 0 then some seedVal else none
  | (i + 1) =>
      if i + 1 = seedPos then some seedVal
      else
        match EMA_raw c xs seedPos seedVal i, (xs[i+1]?).join with
        | some prev, some price => some (c * price + (1 - c) * prev)
        | _, _ => none

/-- EMA.run after the guard, given the frame its SMA dependency call
returned.  When the dropna'd SMA is empty the bare all-NaN EMA frame is
returned, without a Direction column and without rounding. -/
def EMA_body (q : Frame) (smaFr : Frame) (p : ℕ) (f : String) : Frame :=
  let n := q.index.length
  let c : ℚ := 2 / ((p : ℚ) + 1)
  match firstSomePair ((getNums smaFr "SMA").getD []) with
  | none => { index := q.index, cols := [("EMA", .nums (List.replicate n none))] }
  | some iv =>
      let xs := fieldCol q f
      let raw := (List.range n).map (EMA_raw c xs iv.1 iv.2)
      round_df
        { index := q.index
          cols := [("EMA", .nums raw),
                   ("Direction", .dirs (addDirection (List.zipWith oGtB xs raw)
                                                     (List.zipWith oLtB xs raw)))] }

/-- EMA.run with its factory-created SMA dependency threaded through the
store. -/
def EMA_runF (fac : Factory) (store : Store) (sym : String) (q : Frame)
    (p : ℕ) (f : String) (cached : Option Frame) : Frame × Store :=
  match cached with
  | some cfr =>
      if q.index = cfr.index then (cfr, store)
      else
        let r := SMA_create fac p f store sym q none
        (EMA_body q r.1 p f, r.2)
  | none =>
      let r := SMA_create fac p f store sym q none
      (EMA_body q r.1 p f, r.2)

/-- factory.create(EMA, period, field).run(symbol, quotes, cached): the
caching factory hands the wrapped EMA a new caching factory bound to the
same root (PickleIndicatorRunnerFactory.create). -/
def EMA_create (fac : Factory) (p : ℕ) (f : String) (store : Store)
    (sym : String) (q : Frame) (cached : Option Frame) : Frame × Store :=
  match fac with
  | .plain => EMA_runF .plain store sym q p f cached
  | .pickle root =>
      wrapperRun q (root ++ [uniqueEMA p f, symFile sym])
        (fun st ci => EMA_runF (.pickle root) st sym q p f ci) store cached

/-- EMA.run through the plain factory on a cache-free store: the pure
algorithm output. -/
def EMA_core (q : Frame) (p : ℕ) (f : String) : Frame :=
  (EMA_runF .plain emptyStore "" q p f none).1

/-! ### ATR -/

/-- ATR.true_range: rolling window of 2, NaN on the first row, then the
max of the three roundn(.,4)-rounded absolute ranges.  On rows whose
High/Low or previous Close is NaN the python float arithmetic would
propagate NaNs through max; the claims only evaluate ATR on complete
OHLC data, where this cell is defined exactly as below. -/
def trueRangeCol (q : Frame) : List (Option ℚ) :=
  let highs := fieldCol q "High"
  let lows := fieldCol q "Low"
  let closes := fieldCol q "Close"
  (List.range q.index.length).map fun i =>
    if i = 0 then none
    else
      match (highs[i]?).join, (lows[i]?).join, (closes[i-1]?).join with
      | some h, some l, some cp =>
          some (max (roundn4 |h - l|) (max (roundn4 |h - cp|) (roundn4 |l - cp|)))
      | _, _, _ => none

/-- One iteration of the ATR.run loop: seed by the plain mean of the
first full true-range window, then Wilder smoothing, writing at the
window's last index. -/
def ATR_step (p : ℕ) (tr : List (Option ℚ)) (df : List (Option ℚ)) (i : ℕ) :
    List (Option ℚ) :=
  match (tr[i]?).join with
  | none => df
  | some _ =>
      let li := i + p - 1
      let v : Option ℚ :=
        match (df[li - 1]?).join with
        | none => (seqOpt ((tr.drop i).take p)).map (fun w => w.sum / (p : ℚ))
        | some prevAtr => ((tr[li]?).join).map (fun t => (prevAtr * ((p : ℚ) - 1) + t) / p)
      df.set li v

/-- The ATR column before rounding. -/
def ATR_col (q : Frame) (p : ℕ) : List (Option ℚ) :=
  let n := q.index.length
  (List.range (n + 1 - p)).foldl (ATR_step p (trueRangeCol q)) (List.replicate n none)

/-- ATR.run after the guard. -/
def ATR_core (q : Frame) (p : ℕ) : Frame :=
  let n := q.index.length
  round_df
    { index := q.index
      cols := [("ATR", .nums (ATR_col q p)),
               ("Direction", .dirs (addDirection (List.replicate n false)
                                                 (List.replicate n false)))] }

/-- ATR.run including the guard; ATR creates no dependencies. -/
def ATR_runF (store : Store) (q : Frame) (p : ℕ) (cached : Option Frame) :
    Frame × Store :=
  (runGuard q cached (ATR_core q p), store)

/-- factory.create(ATR, period).run(symbol, quotes, cached). -/
def ATR_create (fac : Factory) (p : ℕ) (store : Store) (sym : String)
    (q : Frame) (cached : Option Frame) : Frame × Store :=
  match fac with
  | .plain => ATR_runF store q p cached
  | .pickle root =>
      wrapperRun q (root ++ [uniqueATR p, symFile sym])
        (fun st ci => ATR_runF st q p ci) store cached

/-! ### TrailingStops -/

/-- pandas Series.max() over a window: skipna maximum, NaN when the
window holds no value. -/
def optsMax (l : List (Option ℚ)) : Option ℚ :=
  l.foldl (fun acc x =>
    match acc, x with
    | none, y => y
    | some a, none => some a
    | some a, some b => some (max a b)) none

/-- pandas Series.min() over a window: skipna minimum. -/
def optsMin (l : List (Option ℚ)) : Option ℚ :=
  l.foldl (fun acc x =>
    match acc, x with
    | none, y => y
    | some a, none => some a
    | some a, some b => some (min a b)) none

/-- np.max over the non-null entries of [candidate, previous stop]. -/
def omax2 (a b : Option ℚ) : Option ℚ :=
  match a, b with
  | some x, some y => some (max x y)
  | some x, none => some x
  | none, y => y

/-- np.min over the non-null entries of [candidate, previous stop]. -/
def omin2 (a b : Option ℚ) : Option ℚ :=
  match a, b with
  | some x, some y => some (min x y)
  | some x, none => some x
  | none, y => y

/-- The mutable state of the TrailingStops.run loop: the regime sign
(sign = -1 is bearish) and the two stop columns being filled in. -/
structure TSState where
  bearish : Bool
  sell : List (Option ℚ)
  buy : List (Option ℚ)
deriving DecidableEq, Repr

/-- One iteration i of the TrailingStops.run loop.  Rows whose ATR is
NaN are skipped; otherwise the candidate stop is computed from the
trailing Close window (df_quotes.iloc[i-period+1 : i+1]; the loop only
reaches this point for i >= period, where the ℕ truncation of the lower
bound agrees with the python slice), ratcheted against the previous
stop, written at row i+1, and the regime flips when the next Close
crosses the freshly written stop. -/
def TS_step (closes atr : List (Option ℚ)) (m : ℚ) (p : ℕ)
    (st : TSState) (i : ℕ) : TSState :=
  match (atr[i]?).join with
  | none => st
  | some a =>
      let win := (closes.drop (i + 1 - p)).take p
      let sign : ℚ := if st.bearish then -1 else 1
      let sellCand := (optsMax win).map (fun mp => mp + sign * (m * a))
      let buyCand := (optsMin win).map (fun mp => mp + sign * (m * a))
      let sellNew := omax2 sellCand ((st.sell[i]?).join)
      let buyNew := omin2 buyCand ((st.buy[i]?).join)
      if st.bearish then
        { bearish := ! oLeB ((closes[i+1]?).join) sellNew
          sell := st.sell.set (i + 1) sellNew
          buy := st.buy }
      else
        { bearish := oGeB ((closes[i+1]?).join) buyNew
          sell := st.sell
          buy := st.buy.set (i + 1) buyNew }

/-- The TrailingStops loop state after the first k iterations. -/
def TS_iter (closes atr : List (Option ℚ)) (m : ℚ) (p n : ℕ) (k : ℕ) : TSState :=
  (List.range k).foldl (TS_step closes atr m p)
    ⟨true, List.replicate n none, List.replicate n none⟩

/-- TrailingStops.run after the guard, given its ATR dependency frame. -/
def TS_body (q : Frame) (atrFr : Frame) (m : ℚ) (p : ℕ) : Frame :=
  let n := q.index.length
  let closes := fieldCol q "Close"
  let atrCol := (getNums atrFr "ATR").getD []
  let fin := TS_iter closes atrCol m p n (n - 1)
  round_df
    { index := q.index
      cols := [("BuyStops", .nums fin.buy),
               ("SellStops", .nums fin.sell),
               ("Direction", .dirs (addDirection (List.zipWith oGeB closes fin.buy)
                                                 (List.zipWith oLeB closes fin.sell)))] }

/-- TrailingStops.run with its factory-created ATR dependency. -/
def TS_runF (fac : Factory) (store : Store) (sym : String) (q : Frame)
    (m : ℚ) (p : ℕ) (cached : Option Frame) : Frame × Store :=
  match cached with
  | some cfr =>
      if q.index = cfr.index then (cfr, store)
      else
        let r := ATR_create fac p store sym q none
        (TS_body q r.1 m p, r.2)
  | none =>
      let r := ATR_create fac p store sym q none
      (TS_body q r.1 m p, r.2)

/-- factory.create(TrailingStops, multiplier, period).run(...); the
unique name renders the integer multiplier of the source's default
configuration space. -/
def TS_create (fac : Factory) (m p : ℕ) (store : Store) (sym : String)
    (q : Frame) (cached : Option Frame) : Frame × Store :=
  match fac with
  | .plain => TS_runF .plain store sym q (m : ℚ) p cached
  | .pickle root =>
      wrapperRun q (root ++ [uniqueTrailingStops m p, symFile sym])
        (fun st ci => TS_runF (.pickle root) st sym q (m : ℚ) p ci) store cached

/-- TrailingStops.run through the plain factory: the pure algorithm. -/
def TS_core (q : Frame) (m : ℚ) (p : ℕ) : Frame :=
  (TS_runF .plain emptyStore "" q m p none).1

/-! ### MACD -/

/-- Series.shift(1): NaN in front, last cell dropped. -/
def shift1 (xs : List (Option ℚ)) : List (Option ℚ) := none :: xs.dropLast

/-- Elementwise subtraction of two aligned columns, NaN-propagating. -/
def zipSub (a b : List (Option ℚ)) : List (Option ℚ) :=
  List.zipWith (fun x y =>
    match x, y with
    | some u, some v => some (u - v)
    | _, _ => none) a b

/-- MACD.run after the guard, given the three EMA dependency frames (the
third one having been run on the intermediate frame that carries the
MACD column). -/
def MACD_body (q : Frame) (fastFr slowFr sigFr : Frame) : Frame :=
  let macdCol := zipSub ((getNums fastFr "EMA").getD []) ((getNums slowFr "EMA").getD [])
  let sigCol := (getNums sigFr "EMA").getD []
  let mS := shift1 macdCol
  let sS := shift1 sigCol
  let n := q.index.length
  let cross1 := (List.range n).map fun i =>
    if oGtB ((macdCol[i]?).join) ((sigCol[i]?).join) &&
       oLeB ((mS[i]?).join) ((sS[i]?).join) then some (1 : ℚ) else some 0
  let cross2 := (List.range n).map fun i =>
    if oLtB ((macdCol[i]?).join) ((sigCol[i]?).join) &&
       oLeB ((sS[i]?).join) ((mS[i]?).join) then some (1 : ℚ) else some 0
  round_df
    { index := q.index
      cols := [("MACD", .nums macdCol),
               ("Signal", .nums sigCol),
               ("MACDCrossoverSignal", .nums cross1),
               ("SignalCrossoverMACD", .nums cross2),
               ("Direction", .dirs (addDirection (cross1.map (fun v => v == some 1))
                                                 (cross2.map (fun v => v == some 1))))] }

/-- MACD.run with its EMA dependencies threaded through the factory: the
signal EMA is run on the intermediate frame holding the MACD column, an
indicator of an indicator. -/
def MACD_runF (fac : Factory) (store : Store) (sym : String) (q : Frame)
    (fast slow signal : ℕ) (cached : Option Frame) : Frame × Store :=
  let body : Store → Frame × Store := fun st0 =>
    let rf := EMA_create fac fast "Close" st0 sym q none
    let rs := EMA_create fac slow "Close" rf.2 sym q none
    let macdCol := zipSub ((getNums rf.1 "EMA").getD []) ((getNums rs.1 "EMA").getD [])
    let dfMid : Frame := { index := q.index, cols := [("MACD", .nums macdCol)] }
    let rg := EMA_create fac signal "MACD" rs.2 sym dfMid none
    (MACD_body q rf.1 rs.1 rg.1, rg.2)
  match cached with
  | some cfr => if q.index = cfr.index then (cfr, store) else body store
  | none => body store

/-- factory.create(MACD, fast, slow, signal).run(symbol, quotes, cached). -/
def MACD_create (fac : Factory) (fast slow signal : ℕ) (store : Store)
    (sym : String) (q : Frame) (cached : Option Frame) : Frame × Store :=
  match fac with
  | .plain => MACD_runF .plain store sym q fast slow signal cached
  | .pickle root =>
      wrapperRun q (root ++ [uniqueMACD fast slow signal, symFile sym])
        (fun st ci => MACD_runF (.pickle root) st sym q fast slow signal ci) store cached

/-- MACD.run through the plain factory: the pure algorithm. -/
def MACD_core (q : Frame) (fast slow signal : ℕ) : Frame :=
  (MACD_runF .plain emptyStore "" q fast slow signal none).1

/-! ### TrendStrength -/

/-- Python range(start, stop, step) for naturals with a positive step. -/
def pyRange (start stop step : ℕ) : List ℕ :=
  if step = 0 then []
  else (List.range ((stop - start + step - 1) / step)).map (fun k => start + k * step)

/-- TrendStrength.run after the guard, given the SMA columns its
dependency calls returned (one per period in columns).  The
CountSMAAbovePrice line filters df_comparison with like='SMA' after the
CountSMABelowPrice column was added; that column's name contains 'SMA'
and its integer cells compare equal to False exactly when they are 0,
so it is counted along with the genuine SMA columns. -/
def Trend_body (q : Frame) (smaCols : List (String × List (Option ℚ))) : Frame :=
  let n := q.index.length
  let closes := fieldCol q "Close"
  let highs := fieldCol q "High"
  let colSize : ℚ := (smaCols.length : ℚ)
  let belowCount : ℕ → ℕ := fun i =>
    (smaCols.filter (fun cv => oLtB ((cv.2[i]?).join) ((closes[i]?).join))).length
  let belowVal : ℕ → ℚ := fun i =>
    (pyRound (100 * (belowCount i : ℚ) / colSize) : ℚ)
  let aboveCount : ℕ → ℕ := fun i =>
    (smaCols.filter (fun cv => ! oLtB ((cv.2[i]?).join) ((closes[i]?).join))).length +
      (if belowVal i = 0 then 1 else 0)
  let aboveVal : ℕ → ℚ := fun i =>
    (pyRound (100 * (-(aboveCount i : ℚ)) / colSize) : ℚ)
  let tsCol : List (Option ℚ) := (List.range n).map fun i => some (belowVal i + aboveVal i)
  let tsShift := shift1 tsCol
  let minSMA : ℕ → Option ℚ := fun i => optsMin (smaCols.map (fun cv => (cv.2[i]?).join))
  let longs := (List.range n).map fun i =>
    oGeB ((tsCol[i]?).join) (some 100) && oLtB ((tsShift[i]?).join) (some 100)
  let shorts := (List.range n).map fun i =>
    oLeB ((tsCol[i]?).join) (some (-100)) && oLtB ((highs[i]?).join) (minSMA i)
  round_df
    { index := q.index
      cols := smaCols.map (fun cv => (cv.1, Column.nums cv.2)) ++
              [("TrendStrength", .nums tsCol),
               ("Direction", .dirs (addDirection longs shorts))] }

/-- One dependency call of the TrendStrength loop: create-and-run the
SMA for one period, collect its column, thread the store. -/
def trendStep (fac : Factory) (sym : String) (q : Frame)
    (acc : List (String × List (Option ℚ)) × Store) (c : ℕ) :
    List (String × List (Option ℚ)) × Store :=
  let r := SMA_create fac c "Close" acc.2 sym q none
  (acc.1 ++ [("SMA" ++ natStr c, (getNums r.1 "SMA").getD [])], r.2)

/-- TrendStrength.run with its SMA dependencies threaded through the
factory, one per period in range(start, end, step) plus end. -/
def Trend_runF (fac : Factory) (store : Store) (sym : String) (q : Frame)
    (start stop step : ℕ) (cached : Option Frame) : Frame × Store :=
  let body : Store → Frame × Store := fun st0 =>
    let columns := pyRange start stop step ++ [stop]
    let acc := columns.foldl (trendStep fac sym q) ([], st0)
    (Trend_body q acc.1, acc.2)
  match cached with
  | some cfr => if q.index = cfr.index then (cfr, store) else body store
  | none => body store

/-- factory.create(TrendStrength, start, end, step).run(...). -/
def Trend_create (fac : Factory) (start stop step : ℕ) (store : Store)
    (sym : String) (q : Frame) (cached : Option Frame) : Frame × Store :=
  match fac with
  | .plain => Trend_runF .plain store sym q start stop step cached
  | .pickle root =>
      wrapperRun q (root ++ [uniqueTrendStrength start stop step, symFile sym])
        (fun st ci => Trend_runF (.pickle root) st sym q start stop step ci) store cached

/-- TrendStrength.run through the plain factory: the pure algorithm. -/
def Trend_core (q : Frame) (start stop step : ℕ) : Frame :=
  (Trend_runF .plain emptyStore "" q start stop step none).1

/-! ### The embedded runner family -/

/-- The indicator runners embedded in this development, with the
parameters their __init__ takes (STDEV and RSI values are handled
separately: the former needs irrational square roots, the latter its own
float-special-value model). -/
inductive Runner where
  | sma (p : ℕ) (f : String)
  | ema (p : ℕ) (f : String)
  | atr (p : ℕ)
  | trailingStops (m p : ℕ)
  | macd (fast slow signal : ℕ)
  | trendStrength (start stop step : ℕ)
deriving DecidableEq, Repr

/-- The unique_name each runner computes in __init__. -/
def runnerUnique : Runner → String
  | .sma p f => uniqueSMA p f
  | .ema p f => uniqueEMA p f
  | .atr p => uniqueATR p
  | .trailingStops m p => uniqueTrailingStops m p
  | .macd a b c => uniqueMACD a b c
  | .trendStrength a b c => uniqueTrendStrength a b c

/-- The cache path root/<unique name>/<symbol>.<ext> of a runner. -/
def pathOf (root : Path') (r : Runner) (sym : String) : Path' :=
  root ++ [runnerUnique r, symFile sym]

/-- The run method of a runner whose factory field is fac. -/
def runInner (r : Runner) (fac : Factory) (store : Store) (sym : String)
    (q : Frame) (cached : Option Frame) : Frame × Store :=
  match r with
  | .sma p f => SMA_runF store q p f cached
  | .ema p f => EMA_runF fac store sym q p f cached
  | .atr p => ATR_runF store q p cached
  | .trailingStops m p => TS_runF fac store sym q (m : ℚ) p cached
  | .macd a b c => MACD_runF fac store sym q a b c cached
  | .trendStrength a b c => Trend_runF fac store sym q a b c cached

/-- factory.create(cls, params) followed by handle.run(symbol, quotes,
cached): the plain factory hands back the bare runner (factory = self);
the caching factory wraps it in a PickleIndicatorRunnerWrapper whose
inner runner got a fresh caching factory bound to the same root. -/
def createRun (r : Runner) (fac : Factory) (store : Store) (sym : String)
    (q : Frame) (cached : Option Frame) : Frame × Store :=
  match fac with
  | .plain => runInner r .plain store sym q cached
  | .pickle root =>
      wrapperRun q (pathOf root r sym)
        (fun st ci => runInner r (.pickle root) st sym q ci) store cached

/-- The dependencies each runner's run creates through its factory,
transitively (from the source bodies: EMA creates SMA; TrailingStops
creates ATR; MACD creates two Close-EMAs, one MACD-field EMA and through
them their SMAs; TrendStrength creates one SMA per period). -/
def depClosure : Runner → List Runner
  | .sma _ _ => []
  | .ema p f => [.sma p f]
  | .atr _ => []
  | .trailingStops _ p => [.atr p]
  | .macd a b c =>
      [.ema a "Close", .sma a "Close", .ema b "Close", .sma b "Close",
       .ema c "MACD", .sma c "MACD"]
  | .trendStrength a b c => (pyRange a b c ++ [b]).map (fun p => .sma p "Close")

/-- A runner's run through the plain factory on a cache-free store: the
pure algorithm output. -/
def plainRun (r : Runner) (q : Frame) : Frame :=
  (runInner r .plain emptyStore "" q none).1

/-- Every defined numeric cell of the frame is a fixed point of the
fixed-precision rounding: what round_df-before-return guarantees. -/
def RoundedFrame (fr : Frame) : Prop :=
  ∀ name vs, (name, Column.nums vs) ∈ fr.cols →
    ∀ cell ∈ vs, ∀ v : ℚ, cell = some v → roundn4 v = v

/-! ### RSI

RSI.run works on python floats whose special values matter here: the
first diff is NaN, and a loss-free prefix makes the smoothed loss zero so
that RS divides by zero.  Cells are therefore modelled by an explicit
float value domain. -/

/-- A python float cell as RSI.run produces it. -/
inductive Val where
  | nan
  | inf
  | ninf
  | fin (q : ℚ)
deriving DecidableEq, Repr

/-- pandas Series.diff(): NaN first, then elementwise difference. -/
def diffCol (xs : List (Option ℚ)) : List (Option ℚ) :=
  (List.range xs.length).map fun i =>
    if i = 0 then none
    else
      match (xs[i]?).join, (xs[i-1]?).join with
      | some a, some b => some (a - b)
      | _, _ => none

/-- Series.ewm(alpha, adjust=True, ignore_na=False, min_periods=0).mean():
the weighted average of the valid observations with absolute-position
weights (1-alpha)^(t-i); NaN while no observation has been seen. -/
def ewmAdjusted (alpha : ℚ) (xs : List (Option ℚ)) : List (Option ℚ) :=
  (List.range xs.length).map fun t =>
    let valid := (List.range (t + 1)).filterMap
      (fun i => ((xs[i]?).join).map (fun v => (i, v)))
    if valid.isEmpty then none
    else
      some ((valid.map (fun iv => (1 - alpha) ^ (t - iv.1) * iv.2)).sum /
            (valid.map (fun iv => ((1 - alpha) : ℚ) ^ (t - iv.1))).sum)

/-- Float division p_ema / n_ema as numpy performs it on the smoothed
gain and loss series. -/
def divRS (a b : Option ℚ) : Val :=
  match a, b with
  | some x, some y =>
      if y = 0 then (if x = 0 then .nan else if 0 < x then .inf else .ninf)
      else .fin (x / y)
  | _, _ => .nan

/-- The float evaluation of 100 - 100/(1 + RS). -/
def rsiOf : Val → Val
  | .fin q => if 1 + q = 0 then .ninf else .fin (100 - 100 / (1 + q))
  | .inf => .fin 100
  | .ninf => .fin 100
  | .nan => .nan

/-- RSI.run: positive and negative parts of the diff are smoothed with
SMMA (alpha = 1/period), RS is their quotient and RSI = 100-100/(1+RS).
The result is returned with add_direction(False, False) appended and,
unlike every other runner, without a round_df call. -/
def RSI_vals (q : Frame) (p : ℕ) (f : String) : List (String × List Val) :=
  let d := diffCol (fieldCol q f)
  let pSer := d.map (Option.map (fun x => (x + |x|) / 2))
  let nSer := d.map (Option.map (fun x => (-x + |x|) / 2))
  let pe := ewmAdjusted (1 / (p : ℚ)) pSer
  let nE := ewmAdjusted (1 / (p : ℚ)) nSer
  let rs := (List.range q.index.length).map fun i => divRS ((pe[i]?).join) ((nE[i]?).join)
  [("RS", rs), ("RSI", rs.map rsiOf)]

/-! ### Runner configurations and unique names -/

/-- One constructor call per embedded runner type, mirroring the full
__init__ signatures (including the display name parameter, which every
runner accepts with a default). -/
inductive Config where
  | sma (name : String) (period : ℕ) (field : String)
  | ema (name : String) (period : ℕ) (field : String)
  | stdev (name : String) (period : ℕ) (field : String)
  | atr (name : String) (period : ℕ)
  | trailingStops (name : String) (multiplier period : ℕ)
  | macd (name : String) (fast slow signal : ℕ)
  | trendStrength (name : String) (start stop step : ℕ)
  | rsi (name : String) (period : ℕ) (field : String)
deriving DecidableEq, Repr

/-- The unique_name computed by each __init__ format string. -/
def configUnique : Config → String
  | .sma _ p f => uniqueSMA p f
  | .ema _ p f => uniqueEMA p f
  | .stdev _ p f => uniqueSTDEV p f
  | .atr _ p => uniqueATR p
  | .trailingStops _ m p => uniqueTrailingStops m p
  | .macd _ a b c => uniqueMACD a b c
  | .trendStrength _ a b c => uniqueTrendStrength a b c
  | .rsi _ p f => uniqueRSI p f

/-- A configuration with its display name forgotten: the indicator type
together with its numeric / field parameters. -/
def paramKey : Config → Config
  | .sma _ p f => .sma "" p f
  | .ema _ p f => .ema "" p f
  | .stdev _ p f => .stdev "" p f
  | .atr _ p => .atr "" p
  | .trailingStops _ m p => .trailingStops "" m p
  | .macd _ a b c => .macd "" a b c
  | .trendStrength _ a b c => .trendStrength "" a b c
  | .rsi _ p f => .rsi "" p f

/-! ### The persist as a file-operation trace (for the atomicity claim) -/

/-- File-system operations a persist could be built from. -/
inductive FileOp where
  | makedirs (dir : Path')
  | writeDirect (path : Path') (content : Frame)
  | writeTemp (path : Path') (content : Frame)
  | renameReplace (src dst : Path')
deriving DecidableEq, Repr

/-- The operations PickleIndicatorRunnerWrapper.update performs when it
persists: utils.makedirs(save_path.parent) followed by
df.to_pickle(save_path), a single direct write of the final file. -/
def updateOps (path : Path') (fr : Frame) : List FileOp :=
  [.makedirs path.dropLast, .writeDirect path fr]

/-- Effect of one file operation on the completed-entry store. -/
def opSem (st : Store) : FileOp → Store
  | .makedirs _ => st
  | .writeDirect p fr => insertStore st p fr
  | .writeTemp p fr => insertStore st p fr
  | .renameReplace src dst =>
      fun p => if p = dst then st src else if p = src then none else st p

/-- Effect of a whole trace. -/
def applyOps (st : Store) (ops : List FileOp) : Store := ops.foldl opSem st

/-- A trace persists its final path with a write-temp-then-replace
discipline iff it never writes the final path directly and the content
arrives by a rename onto the final path. -/
def writesViaTempReplace (ops : List FileOp) (path : Path') : Bool :=
  ops.all (fun op =>
    match op with
    | .writeDirect p _ => decide (p ≠ path)
    | _ => true) &&
  ops.any (fun op =>
    match op with
    | .renameReplace _ dst => decide (dst = path)
    | _ => false)

/-! ### Quote-frame builders used in the statements -/

/-- A quote table carrying a single field column with no missing values,
as the Quote Source supplies (dates and values in step). -/
def mkField (f : String) (dates : List ℕ) (vals : List ℚ) : Frame :=
  { index := dates, cols := [(f, .nums (vals.map some))] }

/-- A full OHLCV quote table with no missing values. -/
def mkOHLC (dates : List ℕ) (opens highs lows closes vols : List ℚ) : Frame :=
  { index := dates
    cols := [("Open", .nums (opens.map some)),
             ("High", .nums (highs.map some)),
             ("Low", .nums (lows.map some)),
             ("Close", .nums (closes.map some)),
             ("Volume", .nums (vols.map some))] }

/-- The three-character tag that starts each indicator type's unique
name format string, used to tell configurations of different types
apart. -/
def tagOfConfig : Config → List Char
  | .sma _ _ _ => ['s', 'm', 'a']
  | .ema _ _ _ => ['e', 'm', 'a']
  | .stdev _ _ _ => ['s', 't', 'd']
  | .atr _ _ => ['a', 't', 'r']
  | .trailingStops _ _ _ => ['t', 'r', 'a']
  | .macd _ _ _ _ => ['m', 'a', 'c']
  | .trendStrength _ _ _ _ => ['t', 'r', 'e']
  | .rsi _ _ _ => ['r', 's', 'i']

/-! ### Statement bundles for claims with hypotheses (kept as definitions
so their witnesses can restate them closed) -/

/-- The SMA column a run returns (getNums never misses by construction). -/
def smaColOf (q : Frame) (p : ℕ) (f : String) : List (Option ℚ) :=
  (getNums (SMA_core q p f) "SMA").getD []

/-- The EMA column a run returns. -/
def emaColOf (q : Frame) (p : ℕ) (f : String) : List (Option ℚ) :=
  (getNums (EMA_core q p f) "EMA").getD []

/-- Conclusion of the SMA claim: over a complete quote series the SMA
column is defined at row i exactly when i is at least period-1, and each
defined cell is the rounded arithmetic mean of the period most recent
field values. -/
def SMAConcl (p : ℕ) (f : String) (dates : List ℕ) (vals : List ℚ) : Prop :=
  (smaColOf (mkField f dates vals) p f).length = vals.length ∧
  (∀ i, i < vals.length →
    ((((smaColOf (mkField f dates vals) p f)[i]?).join ≠ none) ↔ p - 1 ≤ i)) ∧
  (∀ i, i < vals.length → p - 1 ≤ i →
    ((smaColOf (mkField f dates vals) p f)[i]?).join
      = some (roundn4 (((vals.drop (i + 1 - p)).take p).sum / (p : ℚ))))

/-- Conclusion of the EMA claim: the EMA column is undefined before the
first defined SMA index p-1, equals the SMA value there, and past the
seed each raw cell obeys the recurrence c*price + (1-c)*prev, the
returned cell being its rounding. -/
def EMAConcl (p : ℕ) (f : String) (dates : List ℕ) (vals : List ℚ) : Prop :=
  (emaColOf (mkField f dates vals) p f).length = vals.length ∧
  ∃ seed : ℚ,
    ((smaColOf (mkField f dates vals) p f)[p-1]?).join = some seed ∧
    (∀ i, i < p - 1 → ((emaColOf (mkField f dates vals) p f)[i]?).join = none) ∧
    ((emaColOf (mkField f dates vals) p f)[p-1]?).join
      = ((smaColOf (mkField f dates vals) p f)[p-1]?).join ∧
    (∀ t, p ≤ t → t < vals.length →
      ∃ prev x,
        EMA_raw (2 / ((p : ℚ) + 1)) (vals.map some) (p - 1) seed (t - 1) = some prev ∧
        vals[t]? = some x ∧
        EMA_raw (2 / ((p : ℚ) + 1)) (vals.map some) (p - 1) seed t
          = some ((2 / ((p : ℚ) + 1)) * x + (1 - 2 / ((p : ℚ) + 1)) * prev) ∧
        ((emaColOf (mkField f dates vals) p f)[t]?).join
          = some (roundn4 ((2 / ((p : ℚ) + 1)) * x + (1 - 2 / ((p : ℚ) + 1)) * prev)))

/-- Conclusion of the EMA early-return claim: the run result carries a
Direction column exactly when the series reaches the period, and on a
shorter series it is the bare unrounded all-NaN EMA frame. -/
def EMAEarlyConcl (p : ℕ) (f : String) (dates : List ℕ) (vals : List ℚ) : Prop :=
  (hasCol (EMA_core (mkField f dates vals) p f) "Direction" = false ↔ vals.length < p) ∧
  (vals.length < p →
    EMA_core (mkField f dates vals) p f
      = { index := dates, cols := [("EMA", Column.nums (List.replicate dates.length none))] })

/-- Conclusion of the propagation claim for MACD: wherever the MACD
column of a run result carries no value, the Signal column — the EMA of
the MACD series — carries no value as well, never a coerced number. -/
def MACDPropConcl (q : Frame) (fast slow signal : ℕ) : Prop :=
  ∀ i : ℕ, (((getNums (plainRun (.macd fast slow signal) q) "MACD").getD [])[i]?).join
        = (none : Option ℚ) →
    (((getNums (plainRun (.macd fast slow signal) q) "Signal").getD [])[i]?).join
        = (none : Option ℚ)

/-- Conclusion of the cache-reuse claim: a cache-wrapped run returns the
stored entry unchanged, with the store untouched, exactly when the entry
exists and its index equals the quote index; a stale entry or a missing
entry leads to a full recomputation over the whole quote index, persisted
at the save path. -/
def C2Concl (r : Runner) (root : Path') (store : Store) (sym : String) (q : Frame) : Prop :=
  (∀ cached : Frame, store (pathOf root r sym) = some cached →
    ((q.index = cached.index) ↔
      createRun r (.pickle root) store sym q none = (cached, store))) ∧
  (∀ cached : Frame, store (pathOf root r sym) = some cached → q.index ≠ cached.index →
    createRun r (.pickle root) store sym q none
      = ((runInner r (.pickle root) store sym q (some cached)).1,
         insertStore (runInner r (.pickle root) store sym q (some cached)).2
           (pathOf root r sym) (runInner r (.pickle root) store sym q (some cached)).1) ∧
    ((runInner r (.pickle root) store sym q (some cached)).1).index = q.index) ∧
  (store (pathOf root r sym) = none →
    createRun r (.pickle root) store sym q none
      = ((runInner r (.pickle root) store sym q none).1,
         insertStore (runInner r (.pickle root) store sym q none).2
           (pathOf root r sym) (runInner r (.pickle root) store sym q none).1) ∧
    ((runInner r (.pickle root) store sym q none).1).index = q.index)

/-- Conclusion of the self-propagating-cache claim: after running a
cache-wrapped handle, the handle's own entry and the entry of every
dependency its algorithm creates (transitively) exist in the store under
root/<unique name>/<symbol>. -/
def C1Concl (r : Runner) (root : Path') (store : Store) (sym : String) (q : Frame) : Prop :=
  ∀ d ∈ (r :: depClosure r),
    ((createRun r (.pickle root) store sym q none).2) (pathOf root d sym) ≠ none

/-- Conclusion of the amended persistence claim: the wrapper's persist on
a stale entry is exactly the direct-write trace, and a completed trace
fully replaces the prior entry at the final path, leaving others alone. -/
def FullReplaceConcl (q : Frame) (path : Path')
    (inner : Store → Option Frame → Frame × Store)
    (store : Store) (cfr : Frame) : Prop :=
  (wrapperUpdate q path inner store (some cfr)).2
      = applyOps (inner store (some cfr)).2
          (updateOps path (inner store (some cfr)).1) ∧
  (∀ st p fr, applyOps st (updateOps p fr) = insertStore st p fr) ∧
  (∀ st p fr, applyOps st (updateOps p fr) p = some fr) ∧
  (∀ st p fr pr, pr ≠ p → applyOps st (updateOps p fr) pr = st pr)

/-- The SellStops value iteration i of the TrailingStops loop writes at
row i+1 while the regime is bearish (sign = -1): the window maximum
plus sign times multiplier times ATR, ratcheted up against the
previously written stop. -/
def sellNewAt (closes : List (Option ℚ)) (m a : ℚ) (p : ℕ) (st : TSState) (i : ℕ) :
    Option ℚ :=
  omax2 ((optsMax ((closes.drop (i + 1 - p)).take p)).map
    (fun mp => mp + (-1 : ℚ) * (m * a))) ((st.sell[i]?).join)

/-- The BuyStops value iteration i writes at row i+1 while the regime is
bullish (sign = 1), ratcheted down against the previously written stop. -/
def buyNewAt (closes : List (Option ℚ)) (m a : ℚ) (p : ℕ) (st : TSState) (i : ℕ) :
    Option ℚ :=
  omin2 ((optsMin ((closes.drop (i + 1 - p)).take p)).map
    (fun mp => mp + (1 : ℚ) * (m * a))) ((st.buy[i]?).join)

/-- The TrailingStops.run loop state before iteration k, on quote frame
q with its ATR dependency frame atrFr. -/
def TS_stateAt (q atrFr : Frame) (m : ℚ) (p k : ℕ) : TSState :=
  TS_iter (fieldCol q "Close") ((getNums atrFr "ATR").getD []) m p q.index.length k

/-- Conclusion of the TrailingStops invariant claim, over the returned
frame of TS_body (the run body after its ATR dependency is computed).
Bar i+1's stop cell is written during loop iteration i, so a maximal
regime span is a run of iterations with an unchanged TS_stateAt
bearish flag: while bearish, consecutive populated SellStops cells of
the result are non-decreasing; while bullish, consecutive populated
BuyStops cells are non-increasing; and the regime flips to bullish
after iteration i exactly when the next Close is at most the SellStop
the iteration wrote (to bearish exactly when the next Close is at
least the BuyStop it wrote). -/
def C6Concl (q atrFr : Frame) (m : ℚ) (p : ℕ) : Prop :=
  (∀ i : ℕ, ∀ v w : ℚ,
      (TS_stateAt q atrFr m p i).bearish = true →
      (TS_stateAt q atrFr m p (i + 1)).bearish = true →
      ((((getNums (TS_body q atrFr m p) "SellStops").getD [])[i + 1]?).join = some v) →
      ((((getNums (TS_body q atrFr m p) "SellStops").getD [])[i + 2]?).join = some w) →
      v ≤ w) ∧
  (∀ i : ℕ, ∀ v w : ℚ,
      (TS_stateAt q atrFr m p i).bearish = false →
      (TS_stateAt q atrFr m p (i + 1)).bearish = false →
      ((((getNums (TS_body q atrFr m p) "BuyStops").getD [])[i + 1]?).join = some v) →
      ((((getNums (TS_body q atrFr m p) "BuyStops").getD [])[i + 2]?).join = some w) →
      w ≤ v) ∧
  (∀ i : ℕ,
      (TS_stateAt q atrFr m p i).bearish = true →
      ((TS_stateAt q atrFr m p (i + 1)).bearish = false ↔
        oLeB (((fieldCol q "Close")[i + 1]?).join)
          (((TS_stateAt q atrFr m p (i + 1)).sell[i + 1]?).join) = true)) ∧
  (∀ i : ℕ,
      (TS_stateAt q atrFr m p i).bearish = false →
      ((TS_stateAt q atrFr m p (i + 1)).bearish = true ↔
        oGeB (((fieldCol q "Close")[i + 1]?).join)
          (((TS_stateAt q atrFr m p (i + 1)).buy[i + 1]?).join) = true))

/-! ### Basic lemmas about rounding and decimal rendering -/

theorem pyRound_intCast (z : ℤ) : pyRound (z : ℚ) = z := by
  unfold pyRound
  norm_num

theorem pyRound_floor_le (q : ℚ) : ⌊q⌋ ≤ pyRound q := by
  unfold pyRound
  split_ifs <;> omega

theorem pyRound_le_floor_add_one (q : ℚ) : pyRound q ≤ ⌊q⌋ + 1 := by
  unfold pyRound
  split_ifs <;> omega

theorem pyRound_mono {a b : ℚ} (h : a ≤ b) : pyRound a ≤ pyRound b := by
  rcases lt_or_eq_of_le (Int.floor_le_floor h) with hf | hf
  · calc pyRound a ≤ ⌊a⌋ + 1 := pyRound_le_floor_add_one a
      _ ≤ ⌊b⌋ := by omega
      _ ≤ pyRound b := pyRound_floor_le b
  · have hr : a - (⌊a⌋ : ℚ) ≤ b - (⌊b⌋ : ℚ) := by
      rw [← hf]; exact sub_le_sub_right h _
    unfold pyRound
    rw [← hf] at hr ⊢
    split_ifs <;> first | omega | (exfalso; linarith)

theorem pyRoundn_idem (n : ℕ) (q : ℚ) : pyRoundn n (pyRoundn n q) = pyRoundn n q := by
  unfold pyRoundn
  have h10 : ((10 : ℚ) ^ n) ≠ 0 := by positivity
  rw [div_mul_cancel₀ _ h10, pyRound_intCast]

theorem roundn4_idem (q : ℚ) : roundn4 (roundn4 q) = roundn4 q := pyRoundn_idem 4 q

theorem pyRoundn_mono (n : ℕ) {a b : ℚ} (h : a ≤ b) : pyRoundn n a ≤ pyRoundn n b := by
  unfold pyRoundn
  have h10 : (0 : ℚ) < 10 ^ n := by positivity
  have h1 := pyRound_mono (mul_le_mul_of_nonneg_right h (le_of_lt h10))
  have h2 : ((pyRound (a * 10 ^ n) : ℤ) : ℚ) ≤ ((pyRound (b * 10 ^ n) : ℤ) : ℚ) := by
    exact_mod_cast h1
  gcongr

theorem roundn4_mono {a b : ℚ} (h : a ≤ b) : roundn4 a ≤ roundn4 b := pyRoundn_mono 4 h

theorem natChars_ne_nil (n : ℕ) : natChars n ≠ [] := by
  unfold natChars
  split
  · simp
  · simp

theorem digitChar_inj {a b : ℕ} (ha : a < 10) (hb : b < 10)
    (h : Nat.digitChar a = Nat.digitChar b) : a = b := by
  interval_cases a <;> interval_cases b <;> simp_all [Nat.digitChar]

theorem digitChar_ne_underscore {a : ℕ} (ha : a < 10) : Nat.digitChar a ≠ '_' := by
  interval_cases a <;> simp [Nat.digitChar]

theorem underscore_not_mem_natChars (n : ℕ) : '_' ∉ natChars n := by
  induction n using Nat.strong_induction_on with
  | _ n ih =>
    unfold natChars
    split
    · next h => simp [(digitChar_ne_underscore h).symm]
    · next h =>
      intro hmem
      rcases List.mem_append.mp hmem with h1 | h1
      · exact ih (n / 10) (Nat.div_lt_self (by omega) (by norm_num)) h1
      · have : '_' = Nat.digitChar (n % 10) := List.mem_singleton.mp h1
        exact digitChar_ne_underscore (Nat.mod_lt _ (by norm_num)) this.symm

theorem natChars_lt10 {n : ℕ} (h : n < 10) : natChars n = [Nat.digitChar n] := by
  rw [natChars]; simp [h]

theorem natChars_ge10 {n : ℕ} (h : ¬ n < 10) :
    natChars n = natChars (n / 10) ++ [Nat.digitChar (n % 10)] := by
  conv_lhs => rw [natChars]
  simp [h]

theorem natChars_inj : ∀ {a b : ℕ}, natChars a = natChars b → a = b := by
  intro a
  induction a using Nat.strong_induction_on with
  | _ a ih =>
    intro b h
    by_cases ha : a < 10 <;> by_cases hb : b < 10
    · rw [natChars_lt10 ha, natChars_lt10 hb] at h
      exact digitChar_inj ha hb (List.singleton_injective h)
    · rw [natChars_lt10 ha, natChars_ge10 hb] at h
      have h2 := natChars_ne_nil (b / 10)
      rcases List.exists_cons_of_ne_nil h2 with ⟨c, cs, hc⟩
      rw [hc] at h
      have := congrArg List.length h
      simp at this
    · rw [natChars_ge10 ha, natChars_lt10 hb] at h
      have h2 := natChars_ne_nil (a / 10)
      rcases List.exists_cons_of_ne_nil h2 with ⟨c, cs, hc⟩
      rw [hc] at h
      have := congrArg List.length h
      simp at this
    · rw [natChars_ge10 ha, natChars_ge10 hb] at h
      have h1 : natChars (a / 10) = natChars (b / 10) ∧
          Nat.digitChar (a % 10) = Nat.digitChar (b % 10) := by
        have := List.append_inj' h (by simp)
        constructor
        · exact this.1
        · simpa using this.2
      have hd : a / 10 = b / 10 :=
        ih (a / 10) (Nat.div_lt_self (by omega) (by norm_num)) h1.1
      have hm : a % 10 = b % 10 :=
        digitChar_inj (Nat.mod_lt _ (by norm_num)) (Nat.mod_lt _ (by norm_num)) h1.2
      omega

/-! ### Splitting unique names at underscores -/

theorem head_split {as1 bs1 as2 bs2 : List Char}
    (h : as1 ++ '_' :: bs1 = as2 ++ '_' :: bs2)
    (h1 : '_' ∉ as1) (h2 : '_' ∉ as2) : as1 = as2 ∧ bs1 = bs2 := by
  induction as1 generalizing as2 with
  | nil =>
    cases as2 with
    | nil => simpa using h
    | cons c cs =>
      exfalso
      simp only [List.nil_append, List.cons_append, List.cons.injEq] at h
      exact h2 (by rw [h.1]; exact List.mem_cons_self _ _)
  | cons c cs ih =>
    cases as2 with
    | nil =>
      exfalso
      simp only [List.nil_append, List.cons_append, List.cons.injEq] at h
      exact h1 (by rw [← h.1]; exact List.mem_cons_self _ _)
    | cons d ds =>
      simp only [List.cons_append, List.cons.injEq] at h
      have hrec := ih h.2 (fun hm => h1 (List.mem_cons_of_mem _ hm))
        (fun hm => h2 (List.mem_cons_of_mem _ hm))
      exact ⟨by rw [h.1, hrec.1], hrec.2⟩

theorem tail_split {xs1 ys1 xs2 ys2 : List Char}
    (h : xs1 ++ '_' :: ys1 = xs2 ++ '_' :: ys2)
    (h1 : '_' ∉ ys1) (h2 : '_' ∉ ys2) : xs1 = xs2 ∧ ys1 = ys2 := by
  have e : ∀ (xs ys : List Char), (xs ++ '_' :: ys).reverse = ys.reverse ++ '_' :: xs.reverse := by
    intro xs ys
    simp [List.reverse_append]
  have hrev := congrArg List.reverse h
  rw [e, e] at hrev
  have hs := head_split hrev (by simpa using h1) (by simpa using h2)
  exact ⟨List.reverse_injective hs.2, List.reverse_injective hs.1⟩

theorem append_underscore_shift (A B : List Char) : (A ++ ['_']) ++ B = A ++ '_' :: B := by
  simp

theorem unique_pf_inj (pre : String) {f1 f2 : String} {p1 p2 : ℕ}
    (h : pre ++ f1 ++ "_" ++ natStr p1 = pre ++ f2 ++ "_" ++ natStr p2) :
    f1 = f2 ∧ p1 = p2 := by
  have hd : ((pre.data ++ f1.data) ++ ['_']) ++ natChars p1
      = ((pre.data ++ f2.data) ++ ['_']) ++ natChars p2 := congrArg String.data h
  rw [append_underscore_shift, append_underscore_shift, List.append_assoc,
    List.append_assoc] at hd
  have hc := List.append_cancel_left hd
  have hs := tail_split hc (underscore_not_mem_natChars p1) (underscore_not_mem_natChars p2)
  exact ⟨String.ext hs.1, natChars_inj hs.2⟩

theorem unique_p_inj (pre : String) {p1 p2 : ℕ}
    (h : pre ++ natStr p1 = pre ++ natStr p2) : p1 = p2 := by
  have hd : pre.data ++ natChars p1 = pre.data ++ natChars p2 := congrArg String.data h
  exact natChars_inj (List.append_cancel_left hd)

theorem unique_pp_inj (pre : String) {a1 b1 a2 b2 : ℕ}
    (h : pre ++ natStr a1 ++ "_" ++ natStr b1 = pre ++ natStr a2 ++ "_" ++ natStr b2) :
    a1 = a2 ∧ b1 = b2 := by
  have hd : ((pre.data ++ natChars a1) ++ ['_']) ++ natChars b1
      = ((pre.data ++ natChars a2) ++ ['_']) ++ natChars b2 := congrArg String.data h
  rw [append_underscore_shift, append_underscore_shift] at hd
  have hs := tail_split hd (underscore_not_mem_natChars b1) (underscore_not_mem_natChars b2)
  exact ⟨natChars_inj (List.append_cancel_left hs.1), natChars_inj hs.2⟩

theorem unique_ppp_inj (pre : String) {a1 b1 c1 a2 b2 c2 : ℕ}
    (h : pre ++ natStr a1 ++ "_" ++ natStr b1 ++ "_" ++ natStr c1
       = pre ++ natStr a2 ++ "_" ++ natStr b2 ++ "_" ++ natStr c2) :
    a1 = a2 ∧ b1 = b2 ∧ c1 = c2 := by
  have hd : ((((pre.data ++ natChars a1) ++ ['_']) ++ natChars b1) ++ ['_']) ++ natChars c1
      = ((((pre.data ++ natChars a2) ++ ['_']) ++ natChars b2) ++ ['_']) ++ natChars c2 :=
    congrArg String.data h
  rw [append_underscore_shift, append_underscore_shift,
    append_underscore_shift, append_underscore_shift] at hd
  have hs := tail_split hd (underscore_not_mem_natChars c1) (underscore_not_mem_natChars c2)
  have hs2 := tail_split hs.1 (underscore_not_mem_natChars b1) (underscore_not_mem_natChars b2)
  exact ⟨natChars_inj (List.append_cancel_left hs2.1), natChars_inj hs2.2, natChars_inj hs.2⟩

/-! ### Claim C9 -/

theorem config_tag (c : Config) : (configUnique c).data.take 3 = tagOfConfig c := by
  cases c <;> rfl

/-- C9 (counterexample): two SMA configurations that differ in a
constructor parameter — the display name — still produce identical
unique names, refuting that any differing parameter yields a different
Unique Name. -/
theorem c9_counterexample :
    Config.sma "X" 10 "Close" ≠ Config.sma "SMA" 10 "Close" ∧
    configUnique (Config.sma "X" 10 "Close")
      = configUnique (Config.sma "SMA" 10 "Close") :=
  ⟨by decide, rfl⟩

/-- C9 (amended): for every pair of embedded indicator configurations,
the unique names are equal iff the configurations agree on their type
and on every parameter other than the display name. -/
theorem c9_unique_name_iff_params (c1 c2 : Config) :
    configUnique c1 = configUnique c2 ↔ paramKey c1 = paramKey c2 := by
  constructor
  · intro h
    cases c1 <;> cases c2 <;>
      first
      | (exfalso
         have htag := congrArg (fun s => List.take 3 s.data) h
         simp only [config_tag] at htag
         simp only [tagOfConfig] at htag
         exact absurd htag (by decide))
      | (simp only [configUnique, uniqueMACD, uniqueTrendStrength] at h
         obtain ⟨h1, h2, h3⟩ := unique_ppp_inj _ h
         simp [paramKey, h1, h2, h3]
         done)
      | (simp only [configUnique, uniqueTrailingStops] at h
         obtain ⟨h1, h2⟩ := unique_pp_inj _ h
         simp [paramKey, h1, h2]
         done)
      | (simp only [configUnique, uniqueATR] at h
         have h1 := unique_p_inj _ h
         simp [paramKey, h1]
         done)
      | (simp only [configUnique, uniqueSMA, uniqueEMA, uniqueSTDEV, uniqueRSI] at h
         obtain ⟨h1, h2⟩ := unique_pf_inj _ h
         simp [paramKey, h1, h2]
         done)
  · intro h
    cases c1 <;> cases c2 <;> simp_all [paramKey, configUnique]

/-! ### Claim C3 -/

/-- C3 (counterexample): the file-operation trace of a cache persist on a
concrete run result is a direct write of the final file; it does not
follow a write-temp-then-replace discipline. -/
theorem c3_counterexample :
    writesViaTempReplace
      (updateOps (pathOf ["root"] (.sma 1 "Close") "X")
        (SMA_core (mkField "Close" [0] [5]) 1 "Close"))
      (pathOf ["root"] (.sma 1 "Close") "X") = false := by
  with_unfolding_all decide

/-- C3 (amended): every completed cache persist fully replaces any prior
entry for its (unique name, symbol) path — afterwards the store maps the
save path to exactly the new frame and every other path is untouched —
but the write is a single direct overwrite of the final file rather than
a write-temp-then-replace, so nothing in the code prevents a partial
file if the process dies mid-write. -/
theorem c3_full_replace (q : Frame) (path : Path')
    (inner : Store → Option Frame → Frame × Store)
    (store : Store) (cfr : Frame)
    (hstale : q.index ≠ cfr.index) :
    FullReplaceConcl q path inner store cfr := by
  refine ⟨?_, ?_, ?_, ?_⟩
  · simp [wrapperUpdate, hstale, applyOps, updateOps, opSem]
  · intro st p fr
    rfl
  · intro st p fr
    simp [applyOps, updateOps, opSem, insertStore]
  · intro st p fr pr hne
    simp [applyOps, updateOps, opSem, insertStore, hne]

/-- Witness for the amended C3 theorem at a concrete stale entry. -/
theorem c3_full_replace_witness :
    (mkField "Close" [0, 1] [1, 2]).index ≠ (mkField "Close" [0] [5]).index ∧
    FullReplaceConcl (mkField "Close" [0, 1] [1, 2])
      (pathOf ["root"] (.sma 1 "Close") "X")
      (fun st _ => (SMA_core (mkField "Close" [0, 1] [1, 2]) 1 "Close", st))
      emptyStore (mkField "Close" [0] [5]) :=
  ⟨by decide, c3_full_replace _ _ _ _ _ (by decide)⟩

/-! ### Claim C5 -/

theorem seqOpt_map_some (l : List ℚ) : seqOpt (l.map some) = some l := by
  induction l with
  | nil => rfl
  | cons x xs ih => simp [seqOpt, ih]

theorem fieldCol_mkField (f : String) (dates : List ℕ) (vals : List ℚ) :
    fieldCol (mkField f dates vals) f = vals.map some := by
  simp [fieldCol, getNums, mkField, List.lookup]

theorem smaColOf_eq (q : Frame) (p : ℕ) (f : String) :
    smaColOf q p f = (rollingMean p (fieldCol q f)).map (Option.map roundn4) := by
  simp [smaColOf, SMA_core, round_df, getNums, roundCol, List.lookup]

theorem rollingMean_length (p : ℕ) (xs : List (Option ℚ)) :
    (rollingMean p xs).length = xs.length := by
  simp [rollingMean]

theorem rollingMean_getElem (p : ℕ) (xs : List (Option ℚ)) (i : ℕ) (h : i < xs.length) :
    (rollingMean p xs)[i]?
      = some (if i + 1 < p then none
              else (seqOpt ((xs.drop (i + 1 - p)).take p)).map (fun w => w.sum / (p : ℚ))) := by
  simp [rollingMean, List.getElem?_map, List.getElem?_range, h]

/-- C5: for every period of at least 1, every field and every complete
quote series, the SMA column is defined at row i iff i is at least
period-1 — the first period-1 rows carry no value — and each defined
cell equals the rounded arithmetic mean of the trailing period field
values. -/
theorem c5_sma (p : ℕ) (f : String) (dates : List ℕ) (vals : List ℚ)
    (hp : 1 ≤ p) (hlen : dates.length = vals.length) :
    SMAConcl p f dates vals := by
  have hx : fieldCol (mkField f dates vals) f = vals.map some :=
    fieldCol_mkField f dates vals
  have hS : smaColOf (mkField f dates vals) p f
      = (rollingMean p (vals.map some)).map (Option.map roundn4) := by
    rw [smaColOf_eq, hx]
  have hcell : ∀ i, i < vals.length →
      ((smaColOf (mkField f dates vals) p f)[i]?).join
        = (if i + 1 < p then none
           else some (roundn4 (((vals.drop (i + 1 - p)).take p).sum / (p : ℚ)))) := by
    intro i hi
    rw [hS, List.getElem?_map,
      rollingMean_getElem p (vals.map some) i (by simpa using hi)]
    rw [← List.map_drop, ← List.map_take, seqOpt_map_some]
    split
    · rfl
    · rfl
  refine ⟨?_, ?_, ?_⟩
  · rw [hS]
    simp [rollingMean_length]
  · intro i hi
    rw [hcell i hi]
    split
    · next hlt => simp; omega
    · next hge => simp; omega
  · intro i hi hge
    rw [hcell i hi]
    rw [if_neg (by omega)]

/-- Witness for C5 at the spec's concrete example: SMA(3) over the
ten-value close series, checked at rows 2 and 9. -/
theorem c5_sma_witness :
    1 ≤ 3 ∧ (List.range 10).length = ([10, 11, 12, 11, 10, 9, 8, 9, 10, 11] : List ℚ).length ∧
    SMAConcl 3 "Close" (List.range 10) [10, 11, 12, 11, 10, 9, 8, 9, 10, 11] :=
  ⟨by decide, by decide,
    c5_sma 3 "Close" (List.range 10) [10, 11, 12, 11, 10, 9, 8, 9, 10, 11]
      (by decide) (by decide)⟩

/-! ### Claim C4 -/

theorem sma_cell (p : ℕ) (f : String) (dates : List ℕ) (vals : List ℚ)
    (i : ℕ) (hi : i < vals.length) :
    ((smaColOf (mkField f dates vals) p f)[i]?).join
      = (if i + 1 < p then none
         else some (roundn4 (((vals.drop (i + 1 - p)).take p).sum / (p : ℚ)))) := by
  rw [smaColOf_eq, fieldCol_mkField, List.getElem?_map,
    rollingMean_getElem p (vals.map some) i (by simpa using hi)]
  rw [← List.map_drop, ← List.map_take, seqOpt_map_some]
  split
  · rfl
  · rfl

theorem smaColOf_mkField_length (p : ℕ) (f : String) (dates : List ℕ) (vals : List ℚ) :
    (smaColOf (mkField f dates vals) p f).length = vals.length := by
  rw [smaColOf_eq, fieldCol_mkField]
  simp [rollingMean_length]

theorem EMA_core_eq (q : Frame) (p : ℕ) (f : String) :
    EMA_core q p f = EMA_body q (SMA_core q p f) p f := by
  simp [EMA_core, EMA_runF, SMA_create, SMA_runF, runGuard]

theorem firstSomePair_of (l : List (Option ℚ)) (k : ℕ) (v : ℚ)
    (hk : l[k]? = some (some v)) (hbefore : ∀ i, i < k → l[i]? = some none) :
    firstSomePair l = some (k, v) := by
  induction l generalizing k with
  | nil => simp at hk
  | cons a t ih =>
    cases k with
    | zero =>
      simp at hk
      rw [hk]
      rfl
    | succ k' =>
      have ha := hbefore 0 (Nat.succ_pos _)
      simp at ha
      subst ha
      have ht := ih k' (by simpa using hk)
        (fun i hi => by simpa using hbefore (i + 1) (by omega))
      simp [firstSomePair, ht]

theorem EMA_raw_before (c : ℚ) (xs : List (Option ℚ)) (k : ℕ) (v : ℚ) :
    ∀ i, i < k → EMA_raw c xs k v i = none := by
  intro i
  induction i with
  | zero =>
    intro h
    simp [EMA_raw]
    omega
  | succ i ih =>
    intro h
    have hne : ¬ (i + 1 = k) := by omega
    rw [EMA_raw, if_neg hne, ih (by omega)]

theorem EMA_raw_seed (c : ℚ) (xs : List (Option ℚ)) (k : ℕ) (v : ℚ) :
    EMA_raw c xs k v k = some v := by
  cases k with
  | zero => simp [EMA_raw]
  | succ k' => rw [EMA_raw, if_pos rfl]

theorem map_some_join (vals : List ℚ) (j : ℕ) :
    (((vals.map some)[j]?).join : Option ℚ) = vals[j]? := by
  rcases h : vals[j]? with _ | x <;> simp [List.getElem?_map, h]

theorem EMA_raw_some (c : ℚ) (vals : List ℚ) (k : ℕ) (v : ℚ) :
    ∀ t, k ≤ t → t < vals.length →
      ∃ y, EMA_raw c (vals.map some) k v t = some y := by
  intro t
  induction t with
  | zero =>
    intro hk _
    have : k = 0 := by omega
    subst this
    exact ⟨v, EMA_raw_seed c _ 0 v⟩
  | succ t ih =>
    intro hk hlt
    by_cases he : t + 1 = k
    · exact ⟨v, he ▸ EMA_raw_seed c (vals.map some) k v⟩
    · have hk' : k ≤ t := by omega
      obtain ⟨prev, hprev⟩ := ih hk' (by omega)
      obtain ⟨x, hx⟩ : ∃ x, vals[t+1]? = some x :=
        ⟨vals.get ⟨t + 1, hlt⟩, List.getElem?_eq_getElem hlt⟩
      refine ⟨c * x + (1 - c) * prev, ?_⟩
      rw [EMA_raw, if_neg he, hprev]
      rw [show ((vals.map some)[t+1]?).join = vals[t+1]? from map_some_join vals (t+1), hx]

theorem emaColOf_eq_raw (p : ℕ) (f : String) (dates : List ℕ) (vals : List ℚ)
    (k : ℕ) (seed : ℚ)
    (hfsp : firstSomePair (smaColOf (mkField f dates vals) p f) = some (k, seed)) :
    emaColOf (mkField f dates vals) p f
      = (List.range dates.length).map
          (fun i => Option.map roundn4
            (EMA_raw (2 / ((p : ℚ) + 1)) (vals.map some) k seed i)) := by
  have hsma : (getNums (SMA_core (mkField f dates vals) p f) "SMA").getD []
      = smaColOf (mkField f dates vals) p f := rfl
  simp only [emaColOf, EMA_core_eq, EMA_body, hsma, hfsp]
  simp [getNums, round_df, roundCol, List.lookup, fieldCol_mkField, List.map_map]
  exact List.map_congr_left (fun i _ => rfl)

/-- C4: the EMA result's first defined index is the SMA's first defined
index p-1 and carries that SMA value; before it the EMA is undefined;
every later cell is the rounding of the raw recurrence value
c*price[t] + (1-c)*raw[t-1] with c = 2/(p+1). -/
theorem c4_ema (p : ℕ) (f : String) (dates : List ℕ) (vals : List ℚ)
    (hp : 1 ≤ p) (hplen : p ≤ vals.length) (hlen : dates.length = vals.length) :
    EMAConcl p f dates vals := by
  have hseed := sma_cell p f dates vals (p - 1) (by omega)
  rw [if_neg (by omega)] at hseed
  set seed := roundn4 (((vals.drop (p - 1 + 1 - p)).take p).sum / (p : ℚ)) with hseeddef
  have hroundseed : roundn4 seed = seed := roundn4_idem _
  have hbefore : ∀ i, i < p - 1 →
      (smaColOf (mkField f dates vals) p f)[i]? = some none := by
    intro i hi
    have hc := sma_cell p f dates vals i (by omega)
    rw [if_pos (by omega)] at hc
    have hlt : i < (smaColOf (mkField f dates vals) p f).length := by
      rw [smaColOf_mkField_length]; omega
    rcases List.getElem?_eq_some_iff.mpr ⟨hlt, rfl⟩ with h
    rcases hcell : (smaColOf (mkField f dates vals) p f)[i]? with _ | cell
    · rw [List.getElem?_eq_none_iff] at hcell
      omega
    · rw [hcell] at hc
      simp at hc
      rw [hc]
  have hk : (smaColOf (mkField f dates vals) p f)[p-1]? = some (some seed) := by
    have hlt : p - 1 < (smaColOf (mkField f dates vals) p f).length := by
      rw [smaColOf_mkField_length]; omega
    rcases hcell : (smaColOf (mkField f dates vals) p f)[p-1]? with _ | cell
    · rw [List.getElem?_eq_none_iff] at hcell
      omega
    · rw [hcell] at hseed
      simp at hseed
      rw [hseed]
  have hfsp := firstSomePair_of _ (p - 1) seed hk hbefore
  have hE := emaColOf_eq_raw p f dates vals (p - 1) seed hfsp
  have hEcell : ∀ i, i < vals.length →
      ((emaColOf (mkField f dates vals) p f)[i]?).join
        = Option.map roundn4 (EMA_raw (2 / ((p : ℚ) + 1)) (vals.map some) (p - 1) seed i) := by
    intro i hi
    rw [hE, List.getElem?_map, List.getElem?_range (by omega)]
    rfl
  refine ⟨?_, seed, ?_, ?_, ?_, ?_⟩
  · rw [hE]
    simp [hlen]
  · rw [hseed]
  · intro i hi
    rw [hEcell i (by omega), EMA_raw_before _ _ _ _ i hi]
    rfl
  · rw [hEcell (p - 1) (by omega), EMA_raw_seed, hseed]
    simp [hroundseed]
  · intro t hpt hlt
    obtain ⟨prev, hprev⟩ :=
      EMA_raw_some (2 / ((p : ℚ) + 1)) vals (p - 1) seed (t - 1) (by omega) (by omega)
    obtain ⟨x, hx⟩ : ∃ x, vals[t]? = some x :=
      ⟨vals.get ⟨t, hlt⟩, List.getElem?_eq_getElem hlt⟩
    refine ⟨prev, x, hprev, hx, ?_, ?_⟩
    · rcases ht : t with _ | t'
      · omega
      · rw [ht] at hprev hx
        simp only [Nat.add_sub_cancel] at hprev
        rw [EMA_raw, if_neg (by omega), hprev,
          show (((vals.map some))[t'+1]?).join = vals[t'+1]? from map_some_join vals (t'+1), hx]
    · rw [hEcell t (by omega)]
      rcases ht : t with _ | t'
      · omega
      · rw [ht] at hprev hx
        simp only [Nat.add_sub_cancel] at hprev
        rw [EMA_raw, if_neg (by omega), hprev,
          show (((vals.map some))[t'+1]?).join = vals[t'+1]? from map_some_join vals (t'+1), hx]
        rfl

/-- Witness for C4: EMA(2) over a three-value close series. -/
theorem c4_ema_witness :
    1 ≤ 2 ∧ 2 ≤ ([1, 2, 3] : List ℚ).length ∧
    ([0, 1, 2] : List ℕ).length = ([1, 2, 3] : List ℚ).length ∧
    EMAConcl 2 "Close" [0, 1, 2] [1, 2, 3] :=
  ⟨by decide, by decide, by decide,
    c4_ema 2 "Close" [0, 1, 2] [1, 2, 3] (by decide) (by decide) (by decide)⟩

/-! ### Claim C10 -/

theorem smaCol_cell_none (p : ℕ) (f : String) (dates : List ℕ) (vals : List ℚ)
    (i : ℕ) (hi : i < vals.length) (hip : i + 1 < p) :
    (smaColOf (mkField f dates vals) p f)[i]? = some none := by
  have hc := sma_cell p f dates vals i hi
  rw [if_pos hip] at hc
  have hlt : i < (smaColOf (mkField f dates vals) p f).length := by
    rw [smaColOf_mkField_length]; omega
  rcases hcell : (smaColOf (mkField f dates vals) p f)[i]? with _ | cell
  · rw [List.getElem?_eq_none_iff] at hcell
    omega
  · rw [hcell] at hc
    simp at hc
    rw [hc]

theorem firstSomePair_none (l : List (Option ℚ))
    (h : ∀ i, i < l.length → l[i]? = some none) : firstSomePair l = none := by
  induction l with
  | nil => rfl
  | cons a t ih =>
    have h0 := h 0 (by simp)
    simp at h0
    subst h0
    simp [firstSomePair, ih (fun i hi => by simpa using h (i + 1) (by simpa using hi))]

theorem sma_firstSomePair_of_le (p : ℕ) (f : String) (dates : List ℕ) (vals : List ℚ)
    (hp : 1 ≤ p) (hplen : p ≤ vals.length) :
    ∃ seed, firstSomePair (smaColOf (mkField f dates vals) p f) = some (p - 1, seed) := by
  have hseed := sma_cell p f dates vals (p - 1) (by omega)
  rw [if_neg (by omega)] at hseed
  refine ⟨roundn4 (((vals.drop (p - 1 + 1 - p)).take p).sum / (p : ℚ)), ?_⟩
  apply firstSomePair_of
  · have hlt : p - 1 < (smaColOf (mkField f dates vals) p f).length := by
      rw [smaColOf_mkField_length]; omega
    rcases hcell : (smaColOf (mkField f dates vals) p f)[p-1]? with _ | cell
    · rw [List.getElem?_eq_none_iff] at hcell
      omega
    · rw [hcell] at hseed
      simp at hseed
      rw [hseed]
  · intro i hi
    exact smaCol_cell_none p f dates vals i (by omega) (by omega)

/-- C10: over a complete quote series shorter than the period, EMA.run
takes its early-return path: the EMA column is entirely undefined and —
unlike every other case — no Direction column is present, the frame
being exactly the bare unrounded all-NaN one. -/
theorem c10_ema_early (p : ℕ) (f : String) (dates : List ℕ) (vals : List ℚ)
    (hp : 1 ≤ p) (hlen : dates.length = vals.length) :
    EMAEarlyConcl p f dates vals := by
  by_cases hcase : vals.length < p
  · have hall : ∀ i, i < (smaColOf (mkField f dates vals) p f).length →
        (smaColOf (mkField f dates vals) p f)[i]? = some none := by
      intro i hi
      rw [smaColOf_mkField_length] at hi
      exact smaCol_cell_none p f dates vals i hi (by omega)
    have hfsp := firstSomePair_none _ hall
    have hsma : (getNums (SMA_core (mkField f dates vals) p f) "SMA").getD []
        = smaColOf (mkField f dates vals) p f := rfl
    constructor
    · simp only [EMA_core_eq, EMA_body, hsma, hfsp]
      simp [hasCol, List.lookup, hcase]
    · intro _
      simp only [EMA_core_eq, EMA_body, hsma, hfsp]
      rfl
  · push_neg at hcase
    obtain ⟨seed, hfsp⟩ := sma_firstSomePair_of_le p f dates vals hp hcase
    have hsma : (getNums (SMA_core (mkField f dates vals) p f) "SMA").getD []
        = smaColOf (mkField f dates vals) p f := rfl
    constructor
    · simp only [EMA_core_eq, EMA_body, hsma, hfsp]
      simp [hasCol, round_df, List.lookup]
      omega
    · intro hcon
      omega

/-- Witness for C10: EMA(2) over a one-row series has no Direction
column. -/
theorem c10_ema_early_witness :
    1 ≤ 2 ∧ ([0] : List ℕ).length = ([5] : List ℚ).length ∧
    EMAEarlyConcl 2 "Close" [0] [5] :=
  ⟨by decide, by decide, c10_ema_early 2 "Close" [0] [5] (by decide) (by decide)⟩

/-! ### Claim C7 -/

set_option maxRecDepth 4000 in
/-- C7 (counterexample): RSI.run returns its result without the rounding
step every other runner applies: on the close series [1, 3, 2] the RSI
cell at row 2 is 1900/29, which is not a fixed point of the fixed
4-decimal rounding, so the persisted value is not the rounded value. -/
theorem c7_counterexample :
    (((RSI_vals (mkField "Close" [0, 1, 2] [1, 3, 2]) 20 "Close").lookup "RSI").getD [])[2]?
      = some (Val.fin ((1900 : ℚ) / 29)) ∧
    roundn4 ((1900 : ℚ) / 29) ≠ (1900 : ℚ) / 29 := by
  constructor
  · with_unfolding_all decide
  · with_unfolding_all decide

theorem RoundedFrame_round_df (fr : Frame) : RoundedFrame (round_df fr) := by
  intro name vs hmem cell hcell v hv
  simp only [round_df, List.mem_map] at hmem
  obtain ⟨⟨name0, col0⟩, _, heq⟩ := hmem
  have hcol : roundCol col0 = Column.nums vs := congrArg Prod.snd heq
  cases col0 with
  | nums vs0 =>
      simp only [roundCol] at hcol
      obtain rfl : vs0.map (Option.map roundn4) = vs := (Column.nums.injEq _ _).mp hcol
      obtain ⟨cell0, _, rfl⟩ := List.mem_map.mp hcell
      cases cell0 with
      | none => simp at hv
      | some u =>
          simp at hv
          rw [← hv]
          exact roundn4_idem u
  | dirs vs0 => simp [roundCol] at hcol

theorem EMA_body_rounded (q smaFr : Frame) (p : ℕ) (f : String) :
    RoundedFrame (EMA_body q smaFr p f) := by
  rcases hfsp : firstSomePair ((getNums smaFr "SMA").getD []) with _ | kv
  · intro name vs hmem cell hcell v hv
    simp only [EMA_body, hfsp] at hmem
    simp at hmem
    obtain ⟨-, rfl⟩ := hmem
    rw [List.eq_of_mem_replicate hcell] at hv
    simp at hv
  · have : EMA_body q smaFr p f = round_df
        { index := q.index
          cols := [("EMA", .nums ((List.range q.index.length).map
                     (EMA_raw (2 / ((p : ℚ) + 1)) (fieldCol q f) kv.1 kv.2))),
                   ("Direction", .dirs (addDirection
                     (List.zipWith oGtB (fieldCol q f)
                       ((List.range q.index.length).map
                         (EMA_raw (2 / ((p : ℚ) + 1)) (fieldCol q f) kv.1 kv.2)))
                     (List.zipWith oLtB (fieldCol q f)
                       ((List.range q.index.length).map
                         (EMA_raw (2 / ((p : ℚ) + 1)) (fieldCol q f) kv.1 kv.2)))))] } := by
      simp only [EMA_body, hfsp]
    rw [this]
    exact RoundedFrame_round_df _

/-- C7 (amended): every embedded indicator runner except RSI returns a
frame whose defined numeric cells are fixed points of the fixed-decimal
rounding — the EMA early-return frame vacuously so, its cells all being
NaN — while RSI (the counterexample) skips the rounding. -/
theorem c7_all_runners_rounded (r : Runner) (q : Frame) :
    RoundedFrame (plainRun r q) := by
  cases r with
  | sma p f => exact RoundedFrame_round_df _
  | ema p f => exact EMA_body_rounded _ _ _ _
  | atr p => exact RoundedFrame_round_df _
  | trailingStops m p => exact RoundedFrame_round_df _
  | macd a b c => exact RoundedFrame_round_df _
  | trendStrength a b c => exact RoundedFrame_round_df _

/-! ### Claim C8 -/

/-- C8 (counterexample): on a one-row series, the SMA(2) dependency's
warm-up row carries no value, yet TrendStrength(2,2,5), which consumes
that SMA, returns the concrete number -200 at that row instead of
propagating the no-value marker (the undefined SMA comparison is
counted as 'not below price' and even the freshly added
CountSMABelowPrice column is re-counted by the like='SMA' filter). -/
theorem c8_counterexample :
    ((getNums (SMA_core (mkOHLC [0] [5] [5] [5] [5] [5]) 2 "Close") "SMA").getD [])[0]?
      = some none ∧
    ((getNums (Trend_core (mkOHLC [0] [5] [5] [5] [5] [5]) 2 2 5) "TrendStrength").getD [])[0]?
      = some (some ((-200 : ℚ))) := by
  constructor
  · with_unfolding_all decide
  · with_unfolding_all decide

theorem firstSomePair_some_cell {l : List (Option ℚ)} :
    ∀ {k : ℕ} {v : ℚ}, firstSomePair l = some (k, v) → l[k]? = some (some v) := by
  induction l with
  | nil => intro k v h; simp [firstSomePair] at h
  | cons a t ih =>
    intro k v h
    cases a with
    | some x =>
      simp [firstSomePair] at h
      obtain ⟨rfl, rfl⟩ := h
      simp
    | none =>
      rcases hfsp : firstSomePair t with _ | kv
      · simp [firstSomePair, hfsp] at h
      · obtain ⟨k', v'⟩ := kv
        simp [firstSomePair, hfsp] at h
        obtain ⟨hk, hv⟩ := h
        subst hv
        rw [← hk]
        simpa using ih hfsp

theorem seqOpt_some_forall {l : List (Option ℚ)} {w : List ℚ} (h : seqOpt l = some w) :
    ∀ o ∈ l, ∃ x, o = some x := by
  induction l generalizing w with
  | nil => simp
  | cons a t ih =>
    cases a with
    | none => simp [seqOpt] at h
    | some x =>
      simp only [seqOpt, Option.map_eq_some'] at h
      obtain ⟨w', hw', -⟩ := h
      intro o ho
      rcases List.mem_cons.mp ho with rfl | ho'
      · exact ⟨x, rfl⟩
      · exact ih hw' o ho'

theorem rollingMean_some_at {p : ℕ} {xs : List (Option ℚ)} {i : ℕ} {y : ℚ}
    (hp : 1 ≤ p)
    (h : ((rollingMean p xs)[i]?).join = some y) : ∃ x, xs[i]? = some (some x) := by
  have hi : i < xs.length := by
    by_contra hni
    have : (rollingMean p xs)[i]? = none := by
      rw [List.getElem?_eq_none_iff, rollingMean_length]
      omega
    rw [this] at h
    simp at h
  rw [rollingMean_getElem p xs i hi] at h
  rw [show ∀ o : Option ℚ, (some o).join = o from fun _ => rfl] at h
  by_cases hcase : i + 1 < p
  · rw [if_pos hcase] at h
    simp at h
  · rw [if_neg hcase] at h
    obtain ⟨w, hw, -⟩ := Option.map_eq_some'.mp h
    have hple : p ≤ i + 1 := by omega
    have hwin : ((xs.drop (i + 1 - p)).take p)[p-1]? = xs[i]? := by
      rw [List.getElem?_take_of_lt (by omega), List.getElem?_drop]
      congr 1
      omega
    have hcell : xs[i]? = some (xs.get ⟨i, hi⟩) := List.getElem?_eq_getElem hi
    have hmem : (xs.get ⟨i, hi⟩) ∈ (xs.drop (i + 1 - p)).take p := by
      apply List.getElem?_mem (hwin.trans hcell)
    obtain ⟨x, hx⟩ := seqOpt_some_forall hw _ hmem
    exact ⟨x, by rw [hcell, hx]⟩

theorem sma_some_field {q : Frame} {p : ℕ} {f : String} {i : ℕ} {y : ℚ}
    (hp : 1 ≤ p) (h : ((smaColOf q p f)[i]?).join = some y) :
    ∃ x, (fieldCol q f)[i]? = some (some x) := by
  rw [smaColOf_eq] at h
  rcases hc : (rollingMean p (fieldCol q f))[i]? with _ | c
  · rw [List.getElem?_map, hc] at h
    simp at h
  · rw [List.getElem?_map, hc] at h
    cases c with
    | none => simp at h
    | some u =>
      exact rollingMean_some_at hp (show ((rollingMean p (fieldCol q f))[i]?).join = some u by
        rw [hc]; rfl)

theorem EMA_core_col_raw (q : Frame) (p : ℕ) (f : String) (k : ℕ) (v : ℚ)
    (hfsp : firstSomePair (smaColOf q p f) = some (k, v)) :
    (getNums (EMA_core q p f) "EMA").getD []
      = (List.range q.index.length).map
          (fun i => Option.map roundn4 (EMA_raw (2 / ((p : ℚ) + 1)) (fieldCol q f) k v i)) := by
  have hsma : (getNums (SMA_core q p f) "SMA").getD [] = smaColOf q p f := rfl
  simp only [EMA_core_eq, EMA_body, hsma, hfsp]
  simp [getNums, round_df, roundCol, List.lookup, List.map_map]

theorem ema_core_some_field {q : Frame} {p : ℕ} {f : String} {i : ℕ} {y : ℚ}
    (hp : 1 ≤ p)
    (h : (((getNums (EMA_core q p f) "EMA").getD [])[i]?).join = some y) :
    ∃ x, (fieldCol q f)[i]? = some (some x) := by
  rcases hfsp : firstSomePair (smaColOf q p f) with _ | kv
  · exfalso
    have hcol : (getNums (EMA_core q p f) "EMA").getD []
        = List.replicate q.index.length none := by
      have hsma : (getNums (SMA_core q p f) "SMA").getD [] = smaColOf q p f := rfl
      simp only [EMA_core_eq, EMA_body, hsma, hfsp]
      simp [getNums, List.lookup]
    rw [hcol] at h
    rcases hc : (List.replicate q.index.length (none : Option ℚ))[i]? with _ | c
    · rw [hc] at h
      simp at h
    · have := List.eq_of_mem_replicate (List.getElem?_mem hc)
      subst this
      rw [hc] at h
      simp at h
  · obtain ⟨k, v⟩ := kv
    rw [EMA_core_col_raw q p f k v hfsp] at h
    have hi : i < q.index.length := by
      by_contra hni
      have : ((List.range q.index.length).map
          (fun j => Option.map roundn4 (EMA_raw (2 / ((p : ℚ) + 1)) (fieldCol q f) k v j)))[i]?
          = none := by
        rw [List.getElem?_eq_none_iff]
        simp
        omega
      rw [this] at h
      simp at h
    rw [List.getElem?_map, List.getElem?_range hi] at h
    have h2 : Option.map roundn4 (EMA_raw (2 / ((p : ℚ) + 1)) (fieldCol q f) k v i)
        = some y := h
    have hraw : ∃ u, EMA_raw (2 / ((p : ℚ) + 1)) (fieldCol q f) k v i = some u := by
      rcases hr : EMA_raw (2 / ((p : ℚ) + 1)) (fieldCol q f) k v i with _ | u
      · rw [hr] at h2
        simp at h2
      · exact ⟨u, rfl⟩
    obtain ⟨u, hu⟩ := hraw
    rcases lt_trichotomy i k with hik | hik | hik
    · rw [EMA_raw_before _ _ _ _ i hik] at hu
      simp at hu
    · subst hik
      have hk := firstSomePair_some_cell hfsp
      exact sma_some_field hp (show ((smaColOf q p f)[i]?).join = some v by rw [hk]; rfl)
    · rcases hi' : i with _ | j
      · omega
      · subst hi'
        rw [EMA_raw, if_neg (by omega)] at hu
        rcases hprev : EMA_raw (2 / ((p : ℚ) + 1)) (fieldCol q f) k v j with _ | prev
        · rw [hprev] at hu
          simp at hu
        · rw [hprev] at hu
          rcases hpr : ((fieldCol q f)[j+1]?).join with _ | x
          · rw [hpr] at hu
            simp at hu
          · exact ⟨x, Option.join_eq_some.mp hpr⟩

theorem map_round_join_none (l : List (Option ℚ)) (i : ℕ) :
    (((l.map (Option.map roundn4))[i]?).join = none) ↔ ((l[i]?).join = none) := by
  rcases hc : l[i]? with _ | c
  · simp [List.getElem?_map, hc]
  · cases c <;> simp [List.getElem?_map, hc]

/-- C8 (amended): recurrence warm-up rows carry an explicit no-value
marker (shown for SMA, the common dependency), and MACD's Signal column
— an EMA consuming MACD's own output — propagates every no-value MACD
row as no-value; TrendStrength however (the counterexample) coerces its
SMA dependencies' no-value rows into concrete numbers. -/
theorem c8_no_value_markers :
    (∀ (p : ℕ) (f : String) (dates : List ℕ) (vals : List ℚ) (i : ℕ),
        i < vals.length → i + 1 < p →
        ((smaColOf (mkField f dates vals) p f)[i]?).join = none) ∧
    (∀ (q : Frame) (fast slow signal : ℕ), 1 ≤ signal →
        MACDPropConcl q fast slow signal) := by
  constructor
  · intro p f dates vals i hi hip
    rw [sma_cell p f dates vals i hi, if_pos hip]
  · intro q fast slow signal hsig i hnone
    set fCol := (getNums (EMA_core q fast "Close") "EMA").getD [] with hfColdef
    set sCol := (getNums (EMA_core q slow "Close") "EMA").getD [] with hsColdef
    set macdRaw := zipSub fCol sCol with hmacdRawdef
    set dfMid : Frame := { index := q.index, cols := [("MACD", .nums macdRaw)] }
      with hdfMiddef
    set sigRaw := (getNums (EMA_core dfMid signal "MACD") "EMA").getD [] with hsigRawdef
    have hrun : plainRun (.macd fast slow signal) q
        = MACD_body q (EMA_core q fast "Close") (EMA_core q slow "Close")
            (EMA_core dfMid signal "MACD") := rfl
    have hMACDcol : (getNums (plainRun (.macd fast slow signal) q) "MACD").getD []
        = macdRaw.map (Option.map roundn4) := by
      rw [hrun]
      rfl
    have hSigcol : (getNums (plainRun (.macd fast slow signal) q) "Signal").getD []
        = sigRaw.map (Option.map roundn4) := by
      rw [hrun]
      rfl
    rw [hMACDcol, map_round_join_none] at hnone
    rw [hSigcol, map_round_join_none]
    by_contra hny
    rcases hy : (sigRaw[i]?).join with _ | y
    · exact hny hy
    · obtain ⟨x, hx⟩ := ema_core_some_field hsig
        (show (((getNums (EMA_core dfMid signal "MACD") "EMA").getD [])[i]?).join = some y
          from hy)
      have hfield : fieldCol dfMid "MACD" = macdRaw := by
        simp [hdfMiddef, fieldCol, getNums, List.lookup]
      rw [hfield] at hx
      rw [hx] at hnone
      simp at hnone

/-- Witness for C8: the SMA(3) warm-up cell at row 0 of a two-row series
carries no value, and the MACD propagation instance at concrete
parameters. -/
theorem c8_no_value_markers_witness :
    ((0 : ℕ) < ([1, 2] : List ℚ).length ∧ (0 : ℕ) + 1 < 3 ∧
      ((smaColOf (mkField "Close" [0, 1] [1, 2]) 3 "Close")[0]?).join = none) ∧
    (1 ≤ 1 ∧ MACDPropConcl (mkField "Close" [0, 1] [1, 2]) 2 3 1) :=
  ⟨⟨by decide, by decide,
     c8_no_value_markers.1 3 "Close" [0, 1] [1, 2] 0 (by decide) (by decide)⟩,
   by decide, c8_no_value_markers.2 (mkField "Close" [0, 1] [1, 2]) 2 3 1 (by decide)⟩

/-! ### Claim C2 -/

theorem EMA_body_index (q smaFr : Frame) (p : ℕ) (f : String) :
    (EMA_body q smaFr p f).index = q.index := by
  rcases hfsp : firstSomePair ((getNums smaFr "SMA").getD []) with _ | kv <;>
    simp [EMA_body, hfsp, round_df]

theorem runInner_index (r : Runner) (fac : Factory) (store : Store) (sym : String)
    (q : Frame) : ((runInner r fac store sym q none).1).index = q.index := by
  cases r with
  | sma p f => rfl
  | ema p f => exact EMA_body_index _ _ _ _
  | atr p => rfl
  | trailingStops m p => rfl
  | macd a b c => rfl
  | trendStrength a b c => rfl

theorem runInner_stale (r : Runner) (fac : Factory) (store : Store) (sym : String)
    (q : Frame) (c : Frame) (hne : q.index ≠ c.index) :
    runInner r fac store sym q (some c) = runInner r fac store sym q none := by
  cases r <;>
    simp [runInner, SMA_runF, EMA_runF, ATR_runF, TS_runF, MACD_runF, Trend_runF,
      runGuard, hne]

/-- C2: a cache-wrapped run reuses the stored result — returned unchanged
with the store untouched — exactly when the entry exists and its date
index equals the quote index; any index difference, or a missing entry,
triggers a full recomputation whose result spans the whole quote index
and is persisted at the save path. -/
theorem c2_freshness (r : Runner) (root : Path') (store : Store) (sym : String)
    (q : Frame) : C2Concl r root store sym q := by
  refine ⟨?_, ?_, ?_⟩
  · intro cached hstore
    constructor
    · intro hfresh
      simp [createRun, wrapperRun, hstore, wrapperUpdate, hfresh]
    · intro heq
      by_contra hne
      have hrw : createRun r (.pickle root) store sym q none
          = ((runInner r (.pickle root) store sym q (some cached)).1,
             insertStore (runInner r (.pickle root) store sym q (some cached)).2
               (pathOf root r sym) (runInner r (.pickle root) store sym q (some cached)).1) := by
        simp [createRun, wrapperRun, hstore, wrapperUpdate, hne]
      rw [hrw] at heq
      have hfr := congrArg Prod.fst heq
      simp only at hfr
      have hidx : ((runInner r (.pickle root) store sym q (some cached)).1).index = q.index := by
        rw [runInner_stale r _ store sym q cached hne]
        exact runInner_index r _ store sym q
      rw [hfr] at hidx
      exact hne hidx.symm
  · intro cached hstore hne
    refine ⟨?_, ?_⟩
    · simp [createRun, wrapperRun, hstore, wrapperUpdate, hne]
    · rw [runInner_stale r _ store sym q cached hne]
      exact runInner_index r _ store sym q
  · intro hstore
    refine ⟨?_, ?_⟩
    · simp [createRun, wrapperRun, hstore, wrapperUpdate]
    · exact runInner_index r _ store sym q

/-- Witness for C2 at a concrete runner, store and quote frame. -/
theorem c2_freshness_witness :
    C2Concl (.sma 1 "Close") ["r"] emptyStore "X" (mkField "Close" [0] [5]) :=
  c2_freshness (.sma 1 "Close") ["r"] emptyStore "X" (mkField "Close" [0] [5])

/-! ### Claim C1 -/

theorem insertStore_present (st : Store) (path : Path') (fr : Frame) (pth : Path')
    (h : st pth ≠ none) : insertStore st path fr pth ≠ none := by
  unfold insertStore
  split
  · simp
  · exact h

theorem wrapperRun_self_present (q : Frame) (path : Path')
    (inner : Store → Option Frame → Frame × Store) (store : Store) :
    ((wrapperRun q path inner store none).2) path ≠ none := by
  unfold wrapperRun
  rcases hs : store path with _ | loaded
  · simp [wrapperUpdate, insertStore]
  · simp only [wrapperUpdate]
    split
    · simp [hs]
    · simp [insertStore]

theorem wrapperRun_mono (q : Frame) (path : Path')
    (inner : Store → Option Frame → Frame × Store) (store : Store) (pth : Path')
    (hinner : ∀ st c, st pth ≠ none → (inner st c).2 pth ≠ none)
    (h : store pth ≠ none) :
    ((wrapperRun q path inner store none).2) pth ≠ none := by
  unfold wrapperRun
  rcases hs : store path with _ | loaded
  · simp only [wrapperUpdate]
    exact insertStore_present _ _ _ _ (hinner store none h)
  · simp only [wrapperUpdate]
    split
    · exact h
    · exact insertStore_present _ _ _ _ (hinner store (some loaded) h)

theorem wrapperRun_untouched (q : Frame) (path : Path')
    (inner : Store → Option Frame → Frame × Store) (store : Store) (pth : Path')
    (hne : pth ≠ path)
    (hinner : ∀ st c, (inner st c).2 pth = st pth) :
    ((wrapperRun q path inner store none).2) pth = store pth := by
  unfold wrapperRun
  rcases hs : store path with _ | loaded
  · simp only [wrapperUpdate]
    rw [show (insertStore (inner store none).2 path (inner store none).1) pth
        = (inner store none).2 pth by simp [insertStore, hne]]
    exact hinner store none
  · simp only [wrapperUpdate]
    split
    · rfl
    · show insertStore (inner store (some loaded)).2 path
          (inner store (some loaded)).1 pth = store pth
      rw [show (insertStore (inner store (some loaded)).2 path
            (inner store (some loaded)).1) pth
          = (inner store (some loaded)).2 pth by simp [insertStore, hne]]
      exact hinner store (some loaded)

theorem wrapperRun_miss (q : Frame) (path : Path')
    (inner : Store → Option Frame → Frame × Store) (store : Store)
    (hmiss : store path = none) :
    wrapperRun q path inner store none
      = ((inner store none).1, insertStore (inner store none).2 path (inner store none).1) := by
  simp [wrapperRun, hmiss, wrapperUpdate]

theorem createRun_self_present (r : Runner) (root : Path') (store : Store)
    (sym : String) (q : Frame) :
    ((createRun r (.pickle root) store sym q none).2) (pathOf root r sym) ≠ none :=
  wrapperRun_self_present q (pathOf root r sym)
    (fun st ci => runInner r (.pickle root) st sym q ci) store

theorem SMA_create_mono (fac : Factory) (p : ℕ) (f : String) (store : Store)
    (sym : String) (q : Frame) (pth : Path') (h : store pth ≠ none) :
    ((SMA_create fac p f store sym q none).2) pth ≠ none := by
  cases fac with
  | plain => exact h
  | pickle root =>
    exact wrapperRun_mono _ _ _ _ _ (fun st c hst => hst) h

theorem SMA_create_pickle_present (root : Path') (p : ℕ) (f : String) (store : Store)
    (sym : String) (q : Frame) :
    ((SMA_create (.pickle root) p f store sym q none).2)
      (root ++ [uniqueSMA p f, symFile sym]) ≠ none :=
  wrapperRun_self_present q _ _ store

theorem SMA_create_untouched (root : Path') (p : ℕ) (f : String) (store : Store)
    (sym : String) (q : Frame) (pth : Path')
    (hne : pth ≠ root ++ [uniqueSMA p f, symFile sym]) :
    ((SMA_create (.pickle root) p f store sym q none).2) pth = store pth :=
  wrapperRun_untouched q _ _ store pth hne (fun st c => rfl)

theorem ATR_create_mono (fac : Factory) (p : ℕ) (store : Store)
    (sym : String) (q : Frame) (pth : Path') (h : store pth ≠ none) :
    ((ATR_create fac p store sym q none).2) pth ≠ none := by
  cases fac with
  | plain => exact h
  | pickle root =>
    exact wrapperRun_mono _ _ _ _ _ (fun st c hst => hst) h

theorem EMA_runF_mono (fac : Factory) (st : Store) (sym : String) (q : Frame)
    (p : ℕ) (f : String) (c : Option Frame) (pth : Path') (h : st pth ≠ none) :
    ((EMA_runF fac st sym q p f c).2) pth ≠ none := by
  cases c with
  | none => exact SMA_create_mono fac p f st sym q pth h
  | some cf =>
    simp only [EMA_runF]
    split
    · exact h
    · exact SMA_create_mono fac p f st sym q pth h

theorem EMA_runF_untouched (root : Path') (st : Store) (sym : String) (q : Frame)
    (p : ℕ) (f : String) (c : Option Frame) (pth : Path')
    (hne : pth ≠ root ++ [uniqueSMA p f, symFile sym]) :
    ((EMA_runF (.pickle root) st sym q p f c).2) pth = st pth := by
  cases c with
  | none => exact SMA_create_untouched root p f st sym q pth hne
  | some cf =>
    simp only [EMA_runF]
    split
    · rfl
    · exact SMA_create_untouched root p f st sym q pth hne

theorem EMA_create_mono (root : Path') (p : ℕ) (f : String) (store : Store)
    (sym : String) (q : Frame) (pth : Path') (h : store pth ≠ none) :
    ((EMA_create (.pickle root) p f store sym q none).2) pth ≠ none :=
  wrapperRun_mono _ _ _ _ _
    (fun st c hst => EMA_runF_mono (.pickle root) st sym q p f c pth hst) h

theorem EMA_create_self_present (root : Path') (p : ℕ) (f : String) (store : Store)
    (sym : String) (q : Frame) :
    ((EMA_create (.pickle root) p f store sym q none).2)
      (root ++ [uniqueEMA p f, symFile sym]) ≠ none :=
  wrapperRun_self_present q _ _ store

theorem EMA_create_sma_present (root : Path') (p : ℕ) (f : String) (store : Store)
    (sym : String) (q : Frame)
    (hmiss : store (root ++ [uniqueEMA p f, symFile sym]) = none) :
    ((EMA_create (.pickle root) p f store sym q none).2)
      (root ++ [uniqueSMA p f, symFile sym]) ≠ none := by
  show ((wrapperRun q (root ++ [uniqueEMA p f, symFile sym])
      (fun st ci => EMA_runF (.pickle root) st sym q p f ci) store none).2)
      (root ++ [uniqueSMA p f, symFile sym]) ≠ none
  rw [wrapperRun_miss _ _ _ _ hmiss]
  apply insertStore_present
  exact SMA_create_pickle_present root p f store sym q

theorem EMA_create_untouched (root : Path') (p : ℕ) (f : String) (store : Store)
    (sym : String) (q : Frame) (pth : Path')
    (h1 : pth ≠ root ++ [uniqueEMA p f, symFile sym])
    (h2 : pth ≠ root ++ [uniqueSMA p f, symFile sym]) :
    ((EMA_create (.pickle root) p f store sym q none).2) pth = store pth :=
  wrapperRun_untouched q _ _ store pth h1
    (fun st c => EMA_runF_untouched root st sym q p f c pth h2)

theorem unique_ne_of_tag1 {s1 s2 : String} {c1 c2 : Char}
    (h1 : s1.data.take 1 = [c1]) (h2 : s2.data.take 1 = [c2]) (hc : c1 ≠ c2) :
    s1 ≠ s2 := by
  intro he
  rw [he, h2] at h1
  exact hc (List.singleton_injective h1).symm

theorem uniqueEMA_ne_uniqueSMA (p1 p2 : ℕ) (f1 f2 : String) :
    uniqueEMA p1 f1 ≠ uniqueSMA p2 f2 :=
  unique_ne_of_tag1 (show (uniqueEMA p1 f1).data.take 1 = ['e'] from rfl)
    (show (uniqueSMA p2 f2).data.take 1 = ['s'] from rfl) (by decide)

theorem path_ne_of_unique_ne {root : Path'} {u1 u2 x : String} (h : u1 ≠ u2) :
    (root ++ [u1, x] : Path') ≠ root ++ [u2, x] := by
  intro he
  have := List.append_cancel_left he
  simp at this
  exact h this

theorem trendStep_mono (fac : Factory) (sym : String) (q : Frame)
    (acc : List (String × List (Option ℚ)) × Store) (c : ℕ) (pth : Path')
    (h : acc.2 pth ≠ none) : ((trendStep fac sym q acc c).2) pth ≠ none :=
  SMA_create_mono fac c "Close" acc.2 sym q pth h

theorem trend_fold_mono (fac : Factory) (sym : String) (q : Frame)
    (cols : List ℕ) :
    ∀ (acc : List (String × List (Option ℚ)) × Store) (pth : Path'),
      acc.2 pth ≠ none → ((cols.foldl (trendStep fac sym q) acc).2) pth ≠ none := by
  induction cols with
  | nil => intro acc pth h; exact h
  | cons c cs ih =>
    intro acc pth h
    exact ih (trendStep fac sym q acc c) pth (trendStep_mono fac sym q acc c pth h)

theorem trend_fold_present (root : Path') (sym : String) (q : Frame)
    (cols : List ℕ) :
    ∀ (acc : List (String × List (Option ℚ)) × Store), ∀ c ∈ cols,
      ((cols.foldl (trendStep (.pickle root) sym q) acc).2)
        (root ++ [uniqueSMA c "Close", symFile sym]) ≠ none := by
  induction cols with
  | nil => intro acc c hc; simp at hc
  | cons c0 cs ih =>
    intro acc c hc
    rcases List.mem_cons.mp hc with rfl | hmem
    · simp only [List.foldl_cons]
      apply trend_fold_mono
      exact SMA_create_pickle_present root c "Close" acc.2 sym q
    · simp only [List.foldl_cons]
      exact ih (trendStep (.pickle root) sym q acc c0) c hmem

/-- C1: running a handle produced by the caching factory on a cold cache
leaves a persisted entry under root/<unique name>/<symbol> for the
handle itself and for every dependency its algorithm creates during run,
to the full nesting depth (MACD down to each EMA's SMA), because the
wrapped algorithm's own factory is a caching factory bound to the same
root. -/
theorem c1_transitive_persist (r : Runner) (root : Path') (store : Store)
    (sym : String) (q : Frame)
    (hcold : ∀ d ∈ (r :: depClosure r), store (pathOf root d sym) = none) :
    C1Concl r root store sym q := by
  intro d hd
  cases r with
  | sma p f =>
    simp only [depClosure, List.mem_cons, List.not_mem_nil, or_false] at hd
    subst hd
    exact createRun_self_present _ root store sym q
  | atr p =>
    simp only [depClosure, List.mem_cons, List.not_mem_nil, or_false] at hd
    subst hd
    exact createRun_self_present _ root store sym q
  | ema p f =>
    have hmiss : store (pathOf root (.ema p f) sym) = none :=
      hcold _ (List.mem_cons_self _ _)
    simp only [depClosure, List.mem_cons, List.not_mem_nil, or_false] at hd
    rcases hd with rfl | rfl
    · exact createRun_self_present _ root store sym q
    · show ((wrapperRun q (pathOf root (.ema p f) sym)
          (fun st ci => runInner (.ema p f) (.pickle root) st sym q ci) store none).2)
          (root ++ [uniqueSMA p f, symFile sym]) ≠ none
      rw [wrapperRun_miss _ _ _ _ hmiss]
      apply insertStore_present
      exact SMA_create_pickle_present root p f store sym q
  | trailingStops m p =>
    have hmiss : store (pathOf root (.trailingStops m p) sym) = none :=
      hcold _ (List.mem_cons_self _ _)
    simp only [depClosure, List.mem_cons, List.not_mem_nil, or_false] at hd
    rcases hd with rfl | rfl
    · exact createRun_self_present _ root store sym q
    · show ((wrapperRun q (pathOf root (.trailingStops m p) sym)
          (fun st ci => runInner (.trailingStops m p) (.pickle root) st sym q ci)
          store none).2)
          (root ++ [uniqueATR p, symFile sym]) ≠ none
      rw [wrapperRun_miss _ _ _ _ hmiss]
      apply insertStore_present
      show ((ATR_create (.pickle root) p store sym q none).2)
          (root ++ [uniqueATR p, symFile sym]) ≠ none
      exact wrapperRun_self_present q _ _ store
  | trendStrength a b c =>
    have hmiss : store (pathOf root (.trendStrength a b c) sym) = none :=
      hcold _ (List.mem_cons_self _ _)
    rcases List.mem_cons.mp hd with rfl | hdep
    · exact createRun_self_present _ root store sym q
    · simp only [depClosure, List.mem_map] at hdep
      obtain ⟨c0, hc0, rfl⟩ := hdep
      show ((wrapperRun q (pathOf root (.trendStrength a b c) sym)
          (fun st ci => runInner (.trendStrength a b c) (.pickle root) st sym q ci)
          store none).2)
          (root ++ [uniqueSMA c0 "Close", symFile sym]) ≠ none
      rw [wrapperRun_miss _ _ _ _ hmiss]
      apply insertStore_present
      show (((pyRange a b c ++ [b]).foldl (trendStep (.pickle root) sym q)
          ([], store)).2) (root ++ [uniqueSMA c0 "Close", symFile sym]) ≠ none
      exact trend_fold_present root sym q _ ([], store) c0 hc0
  | macd a b c =>
    have hm0 : store (pathOf root (.macd a b c) sym) = none :=
      hcold _ (List.mem_cons_self _ _)
    have hmeF : store (root ++ [uniqueEMA a "Close", symFile sym]) = none :=
      hcold (.ema a "Close") (by simp [depClosure])
    have hmsF : store (root ++ [uniqueSMA a "Close", symFile sym]) = none :=
      hcold (.sma a "Close") (by simp [depClosure])
    have hmeS : store (root ++ [uniqueEMA b "Close", symFile sym]) = none :=
      hcold (.ema b "Close") (by simp [depClosure])
    have hmsS : store (root ++ [uniqueSMA b "Close", symFile sym]) = none :=
      hcold (.sma b "Close") (by simp [depClosure])
    have hmeG : store (root ++ [uniqueEMA c "MACD", symFile sym]) = none :=
      hcold (.ema c "MACD") (by simp [depClosure])
    -- the three successive EMA dependency stores of MACD.run
    set st1 := (EMA_create (.pickle root) a "Close" store sym q none).2 with hst1
    have h1eF : st1 (root ++ [uniqueEMA a "Close", symFile sym]) ≠ none :=
      EMA_create_self_present root a "Close" store sym q
    have h1sF : st1 (root ++ [uniqueSMA a "Close", symFile sym]) ≠ none :=
      EMA_create_sma_present root a "Close" store sym q hmeF
    set fFr := (EMA_create (.pickle root) a "Close" store sym q none).1 with hfFr
    set st2 := (EMA_create (.pickle root) b "Close" st1 sym q none).2 with hst2
    have h2eF : st2 (root ++ [uniqueEMA a "Close", symFile sym]) ≠ none :=
      EMA_create_mono root b "Close" st1 sym q _ h1eF
    have h2sF : st2 (root ++ [uniqueSMA a "Close", symFile sym]) ≠ none :=
      EMA_create_mono root b "Close" st1 sym q _ h1sF
    have h2eS : st2 (root ++ [uniqueEMA b "Close", symFile sym]) ≠ none :=
      EMA_create_self_present root b "Close" st1 sym q
    have h2sS : st2 (root ++ [uniqueSMA b "Close", symFile sym]) ≠ none := by
      by_cases hab : a = b
      · subst hab
        exact EMA_create_mono root a "Close" st1 sym q _ h1sF
      · have huntouched : st1 (root ++ [uniqueEMA b "Close", symFile sym])
            = store (root ++ [uniqueEMA b "Close", symFile sym]) := by
          apply EMA_create_untouched
          · apply path_ne_of_unique_ne
            intro he
            exact hab ((unique_pf_inj "ema_" he).2.symm)
          · apply path_ne_of_unique_ne
            exact uniqueEMA_ne_uniqueSMA b a "Close" "Close"
        exact EMA_create_sma_present root b "Close" st1 sym q (huntouched.trans hmeS)
    set sFr := (EMA_create (.pickle root) b "Close" st1 sym q none).1 with hsFr
    have h2eG : st2 (root ++ [uniqueEMA c "MACD", symFile sym])
        = none := by
      have hu1 : st1 (root ++ [uniqueEMA c "MACD", symFile sym])
          = store (root ++ [uniqueEMA c "MACD", symFile sym]) := by
        apply EMA_create_untouched
        · apply path_ne_of_unique_ne
          intro he
          exact absurd (unique_pf_inj "ema_" he).1 (by decide)
        · apply path_ne_of_unique_ne
          exact uniqueEMA_ne_uniqueSMA c a "MACD" "Close"
      have hu2 : st2 (root ++ [uniqueEMA c "MACD", symFile sym])
          = st1 (root ++ [uniqueEMA c "MACD", symFile sym]) := by
        apply EMA_create_untouched
        · apply path_ne_of_unique_ne
          intro he
          exact absurd (unique_pf_inj "ema_" he).1 (by decide)
        · apply path_ne_of_unique_ne
          exact uniqueEMA_ne_uniqueSMA c b "MACD" "Close"
      rw [hu2, hu1, hmeG]
    -- the intermediate MACD frame the signal EMA runs on
    set dfMid : Frame :=
      { index := q.index
        cols := [("MACD", .nums (zipSub ((getNums fFr "EMA").getD [])
                                        ((getNums sFr "EMA").getD [])))] } with hdfMid
    set st3 := (EMA_create (.pickle root) c "MACD" st2 sym dfMid none).2 with hst3
    have h3eF : st3 (root ++ [uniqueEMA a "Close", symFile sym]) ≠ none :=
      EMA_create_mono root c "MACD" st2 sym dfMid _ h2eF
    have h3sF : st3 (root ++ [uniqueSMA a "Close", symFile sym]) ≠ none :=
      EMA_create_mono root c "MACD" st2 sym dfMid _ h2sF
    have h3eS : st3 (root ++ [uniqueEMA b "Close", symFile sym]) ≠ none :=
      EMA_create_mono root c "MACD" st2 sym dfMid _ h2eS
    have h3sS : st3 (root ++ [uniqueSMA b "Close", symFile sym]) ≠ none :=
      EMA_create_mono root c "MACD" st2 sym dfMid _ h2sS
    have h3eG : st3 (root ++ [uniqueEMA c "MACD", symFile sym]) ≠ none :=
      EMA_create_self_present root c "MACD" st2 sym dfMid
    have h3sG : st3 (root ++ [uniqueSMA c "MACD", symFile sym]) ≠ none :=
      EMA_create_sma_present root c "MACD" st2 sym dfMid h2eG
    -- the inner MACD run's final store is exactly st3
    have hrun : (runInner (.macd a b c) (.pickle root) store sym q none).2 = st3 := by
      rw [hst3, hdfMid, hfFr, hsFr, hst2, hst1]
      rfl
    -- the full cache-wrapped MACD run persists on top of st3
    have hfinal : ((createRun (.macd a b c) (.pickle root) store sym q none).2)
        = insertStore st3 (pathOf root (.macd a b c) sym)
            ((runInner (.macd a b c) (.pickle root) store sym q none).1) := by
      show ((wrapperRun q (pathOf root (.macd a b c) sym)
          (fun st ci => runInner (.macd a b c) (.pickle root) st sym q ci) store none).2)
          = _
      rw [wrapperRun_miss _ _ _ _ hm0]
      show insertStore (runInner (.macd a b c) (.pickle root) store sym q none).2
          (pathOf root (.macd a b c) sym)
          (runInner (.macd a b c) (.pickle root) store sym q none).1 = _
      rw [hrun]
    rcases List.mem_cons.mp hd with rfl | hdep
    · exact createRun_self_present _ root store sym q
    · rw [hfinal]
      simp only [depClosure, List.mem_cons, List.not_mem_nil, or_false] at hdep
      rcases hdep with rfl | rfl | rfl | rfl | rfl | rfl
      · exact insertStore_present _ _ _ _ h3eF
      · exact insertStore_present _ _ _ _ h3sF
      · exact insertStore_present _ _ _ _ h3eS
      · exact insertStore_present _ _ _ _ h3sS
      · exact insertStore_present _ _ _ _ h3eG
      · exact insertStore_present _ _ _ _ h3sG

/-! ### Claim C6 -/

theorem TS_iter_succ (closes atr : List (Option ℚ)) (m : ℚ) (p n k : ℕ) :
    TS_iter closes atr m p n (k + 1)
      = TS_step closes atr m p (TS_iter closes atr m p n k) k := by
  unfold TS_iter
  rw [List.range_succ, List.foldl_append]
  rfl

theorem TS_step_skip (closes atr : List (Option ℚ)) (m : ℚ) (p : ℕ)
    (st : TSState) (i : ℕ) (hA : (atr[i]?).join = none) :
    TS_step closes atr m p st i = st := by
  rcases h : atr[i]? with _ | o
  · unfold TS_step
    rw [h]
    rfl
  · rw [h] at hA
    have h2 : o = none := hA
    unfold TS_step
    rw [h, h2]
    rfl

theorem TS_step_bearish_eq (closes atr : List (Option ℚ)) (m : ℚ) (p : ℕ)
    (st : TSState) (i : ℕ) (a : ℚ) (hA : (atr[i]?).join = some a)
    (hb : st.bearish = true) :
    TS_step closes atr m p st i =
      { bearish := ! oLeB ((closes[i + 1]?).join) (sellNewAt closes m a p st i)
        sell := st.sell.set (i + 1) (sellNewAt closes m a p st i)
        buy := st.buy } := by
  obtain ⟨b, sl, bl⟩ := st
  have hb' : b = true := hb
  subst hb'
  have ho : atr[i]? = some (some a) := by
    rcases h : atr[i]? with _ | o
    · rw [h] at hA
      exact absurd (show (none : Option ℚ) = some a from hA) (by simp)
    · rw [h] at hA
      have h2 : o = some a := hA
      rw [h2]
  unfold TS_step
  rw [ho]
  rfl

theorem TS_step_bullish_eq (closes atr : List (Option ℚ)) (m : ℚ) (p : ℕ)
    (st : TSState) (i : ℕ) (a : ℚ) (hA : (atr[i]?).join = some a)
    (hb : st.bearish = false) :
    TS_step closes atr m p st i =
      { bearish := oGeB ((closes[i + 1]?).join) (buyNewAt closes m a p st i)
        sell := st.sell
        buy := st.buy.set (i + 1) (buyNewAt closes m a p st i) } := by
  obtain ⟨b, sl, bl⟩ := st
  have hb' : b = false := hb
  subst hb'
  have ho : atr[i]? = some (some a) := by
    rcases h : atr[i]? with _ | o
    · rw [h] at hA
      exact absurd (show (none : Option ℚ) = some a from hA) (by simp)
    · rw [h] at hA
      have h2 : o = some a := hA
      rw [h2]
  unfold TS_step
  rw [ho]
  rfl

theorem TS_step_lengths (closes atr : List (Option ℚ)) (m : ℚ) (p : ℕ)
    (st : TSState) (i : ℕ) :
    (TS_step closes atr m p st i).sell.length = st.sell.length ∧
    (TS_step closes atr m p st i).buy.length = st.buy.length := by
  cases hA : (atr[i]?).join with
  | none =>
    rw [TS_step_skip closes atr m p st i hA]
    exact ⟨rfl, rfl⟩
  | some a =>
    cases hb : st.bearish with
    | true =>
      rw [TS_step_bearish_eq closes atr m p st i a hA hb]
      exact ⟨List.length_set _ _ _, rfl⟩
    | false =>
      rw [TS_step_bullish_eq closes atr m p st i a hA hb]
      exact ⟨rfl, List.length_set _ _ _⟩

theorem TS_iter_lengths (closes atr : List (Option ℚ)) (m : ℚ) (p n : ℕ) :
    ∀ k, (TS_iter closes atr m p n k).sell.length = n ∧
         (TS_iter closes atr m p n k).buy.length = n := by
  intro k
  induction k with
  | zero => exact ⟨List.length_replicate _ _, List.length_replicate _ _⟩
  | succ k ih =>
    rw [TS_iter_succ]
    obtain ⟨hs, hb⟩ := TS_step_lengths closes atr m p (TS_iter closes atr m p n k) k
    exact ⟨hs.trans ih.1, hb.trans ih.2⟩

theorem TS_iter_future_blank (closes atr : List (Option ℚ)) (m : ℚ) (p n : ℕ) :
    ∀ k j, (j = 0 ∨ k < j) →
      (((TS_iter closes atr m p n k).sell[j]?).join = none ∧
       ((TS_iter closes atr m p n k).buy[j]?).join = none) := by
  intro k
  induction k with
  | zero =>
    intro j hj
    refine ⟨?_, ?_⟩ <;>
    · show ((List.replicate n (none : Option ℚ))[j]?).join = none
      rw [List.getElem?_replicate]
      split <;> rfl
  | succ k ih =>
    intro j hj
    have hj' : j = 0 ∨ k < j := by
      rcases hj with rfl | h
      · exact Or.inl rfl
      · exact Or.inr (by omega)
    obtain ⟨ihs, ihb⟩ := ih j hj'
    rw [TS_iter_succ]
    cases hA : (atr[k]?).join with
    | none =>
      rw [TS_step_skip closes atr m p _ k hA]
      exact ⟨ihs, ihb⟩
    | some a =>
      have hne : k + 1 ≠ j := by rcases hj with rfl | h <;> omega
      cases hb : (TS_iter closes atr m p n k).bearish with
      | true =>
        rw [TS_step_bearish_eq closes atr m p _ k a hA hb]
        refine ⟨?_, ihb⟩
        dsimp only
        rw [List.getElem?_set_ne hne]
        exact ihs
      | false =>
        rw [TS_step_bullish_eq closes atr m p _ k a hA hb]
        refine ⟨ihs, ?_⟩
        dsimp only
        rw [List.getElem?_set_ne hne]
        exact ihb

theorem TS_iter_stable (closes atr : List (Option ℚ)) (m : ℚ) (p n : ℕ)
    (j k : ℕ) (hjk : j ≤ k) :
    ∀ k', k ≤ k' →
      ((TS_iter closes atr m p n k').sell[j]? = (TS_iter closes atr m p n k).sell[j]? ∧
       (TS_iter closes atr m p n k').buy[j]? = (TS_iter closes atr m p n k).buy[j]?) := by
  intro k'
  induction k' with
  | zero =>
    intro h
    have : k = 0 := Nat.le_zero.mp h
    subst this
    exact ⟨rfl, rfl⟩
  | succ k' ih =>
    intro h
    rcases Nat.eq_or_lt_of_le h with heq | hlt
    · subst heq
      exact ⟨rfl, rfl⟩
    · have hk' : k ≤ k' := Nat.lt_succ_iff.mp hlt
      obtain ⟨ihs, ihb⟩ := ih hk'
      rw [TS_iter_succ]
      have hne : k' + 1 ≠ j := by omega
      cases hA : (atr[k']?).join with
      | none =>
        rw [TS_step_skip closes atr m p _ k' hA]
        exact ⟨ihs, ihb⟩
      | some a =>
        cases hb : (TS_iter closes atr m p n k').bearish with
        | true =>
          rw [TS_step_bearish_eq closes atr m p _ k' a hA hb]
          refine ⟨?_, ihb⟩
          dsimp only
          rw [List.getElem?_set_ne hne]
          exact ihs
        | false =>
          rw [TS_step_bullish_eq closes atr m p _ k' a hA hb]
          refine ⟨ihs, ?_⟩
          dsimp only
          rw [List.getElem?_set_ne hne]
          exact ihb

theorem omax2_some_le {cand : Option ℚ} {v w : ℚ}
    (h : omax2 cand (some v) = some w) : v ≤ w := by
  cases cand with
  | none =>
    exact le_of_eq (Option.some.inj h)
  | some x =>
    rw [← Option.some.inj h]
    exact le_max_right x v

theorem omin2_some_ge {cand : Option ℚ} {v w : ℚ}
    (h : omin2 cand (some v) = some w) : w ≤ v := by
  cases cand with
  | none =>
    exact le_of_eq (Option.some.inj h).symm
  | some x =>
    rw [← Option.some.inj h]
    exact min_le_right x v

theorem oLeB_none_right (x : Option ℚ) : oLeB x none = false := by
  cases x <;> rfl

theorem oGeB_none_right (x : Option ℚ) : oGeB x none = false := by
  cases x <;> rfl

theorem oLeB_join_none_left (y : Option ℚ) :
    oLeB ((none : Option (Option ℚ)).join) y = false := by
  cases y <;> rfl

theorem oGeB_join_none_left (y : Option ℚ) :
    oGeB ((none : Option (Option ℚ)).join) y = false := by
  cases y <;> rfl

theorem TS_body_sell_col (q atrFr : Frame) (m : ℚ) (p : ℕ) :
    (getNums (TS_body q atrFr m p) "SellStops").getD []
      = (TS_iter (fieldCol q "Close") ((getNums atrFr "ATR").getD []) m p
          q.index.length (q.index.length - 1)).sell.map (Option.map roundn4) := by
  rfl

theorem TS_body_buy_col (q atrFr : Frame) (m : ℚ) (p : ℕ) :
    (getNums (TS_body q atrFr m p) "BuyStops").getD []
      = (TS_iter (fieldCol q "Close") ((getNums atrFr "ATR").getD []) m p
          q.index.length (q.index.length - 1)).buy.map (Option.map roundn4) := by
  rfl

theorem map_round_cell (l : List (Option ℚ)) (j : ℕ) :
    (((l.map (Option.map roundn4))[j]?).join) = ((l[j]?).join).map roundn4 := by
  rw [List.getElem?_map]
  cases hc : l[j]? with
  | none => rfl
  | some c => cases c <;> rfl

theorem TS_loop_invariants (closes atr : List (Option ℚ)) (m : ℚ) (p n : ℕ)
    (hlen : closes.length = n) :
    (∀ i : ℕ, ∀ v w : ℚ,
        (TS_iter closes atr m p n i).bearish = true →
        (TS_iter closes atr m p n (i + 1)).bearish = true →
        ((((TS_iter closes atr m p n (n - 1)).sell.map (Option.map roundn4))[i + 1]?).join
          = some v) →
        ((((TS_iter closes atr m p n (n - 1)).sell.map (Option.map roundn4))[i + 2]?).join
          = some w) →
        v ≤ w) ∧
    (∀ i : ℕ, ∀ v w : ℚ,
        (TS_iter closes atr m p n i).bearish = false →
        (TS_iter closes atr m p n (i + 1)).bearish = false →
        ((((TS_iter closes atr m p n (n - 1)).buy.map (Option.map roundn4))[i + 1]?).join
          = some v) →
        ((((TS_iter closes atr m p n (n - 1)).buy.map (Option.map roundn4))[i + 2]?).join
          = some w) →
        w ≤ v) ∧
    (∀ i : ℕ,
        (TS_iter closes atr m p n i).bearish = true →
        ((TS_iter closes atr m p n (i + 1)).bearish = false ↔
          oLeB ((closes[i + 1]?).join)
            (((TS_iter closes atr m p n (i + 1)).sell[i + 1]?).join) = true)) ∧
    (∀ i : ℕ,
        (TS_iter closes atr m p n i).bearish = false →
        ((TS_iter closes atr m p n (i + 1)).bearish = true ↔
          oGeB ((closes[i + 1]?).join)
            (((TS_iter closes atr m p n (i + 1)).buy[i + 1]?).join) = true)) := by
  have hblank := TS_iter_future_blank closes atr m p n
  have hstable := TS_iter_stable closes atr m p n
  have hlens := TS_iter_lengths closes atr m p n
  refine ⟨?_, ?_, ?_, ?_⟩
  · -- bearish spans: populated SellStops cells non-decreasing
    intro i v w hb hb1 hv hw
    rw [map_round_cell] at hv hw
    obtain ⟨v0, hv0, hvr⟩ : ∃ v0,
        ((TS_iter closes atr m p n (n - 1)).sell[i + 1]?).join = some v0 ∧
          v = roundn4 v0 := by
      rcases hj : ((TS_iter closes atr m p n (n - 1)).sell[i + 1]?).join with _ | v0
      · rw [hj] at hv
        exact absurd hv (by simp)
      · rw [hj] at hv
        exact ⟨v0, rfl, by simpa using hv.symm⟩
    obtain ⟨w0, hw0, hwr⟩ : ∃ w0,
        ((TS_iter closes atr m p n (n - 1)).sell[i + 2]?).join = some w0 ∧
          w = roundn4 w0 := by
      rcases hj : ((TS_iter closes atr m p n (n - 1)).sell[i + 2]?).join with _ | w0
      · rw [hj] at hw
        exact absurd hw (by simp)
      · rw [hj] at hw
        exact ⟨w0, rfl, by simpa using hw.symm⟩
    have hin : i + 2 ≤ n - 1 := by
      by_contra hgt
      rw [(hblank (n - 1) (i + 2) (Or.inr (by omega))).1] at hw0
      exact absurd hw0 (by simp)
    have hst1 : ((TS_iter closes atr m p n (i + 1)).sell[i + 1]?).join = some v0 := by
      rw [(hstable (i + 1) (i + 1) (le_refl _) (n - 1) (by omega)).1] at hv0
      exact hv0
    have hst2 : ((TS_iter closes atr m p n (i + 2)).sell[i + 2]?).join = some w0 := by
      rw [(hstable (i + 2) (i + 2) (le_refl _) (n - 1) (by omega)).1] at hw0
      exact hw0
    rw [TS_iter_succ] at hst2
    cases hA : (atr[i + 1]?).join with
    | none =>
      rw [TS_step_skip closes atr m p _ _ hA] at hst2
      rw [(hblank (i + 1) (i + 2) (Or.inr (by omega))).1] at hst2
      exact absurd hst2 (by simp)
    | some a =>
      rw [TS_step_bearish_eq closes atr m p _ _ a hA hb1] at hst2
      have hr : i + 2 < (TS_iter closes atr m p n (i + 1)).sell.length := by
        rw [(hlens (i + 1)).1]
        omega
      dsimp only at hst2
      rw [List.getElem?_set_self hr] at hst2
      have hnew : sellNewAt closes m a p (TS_iter closes atr m p n (i + 1)) (i + 1)
          = some w0 := hst2
      unfold sellNewAt at hnew
      rw [hst1] at hnew
      rw [hvr, hwr]
      exact roundn4_mono (omax2_some_le hnew)
  · -- bullish spans: populated BuyStops cells non-increasing
    intro i v w hb hb1 hv hw
    rw [map_round_cell] at hv hw
    obtain ⟨v0, hv0, hvr⟩ : ∃ v0,
        ((TS_iter closes atr m p n (n - 1)).buy[i + 1]?).join = some v0 ∧
          v = roundn4 v0 := by
      rcases hj : ((TS_iter closes atr m p n (n - 1)).buy[i + 1]?).join with _ | v0
      · rw [hj] at hv
        exact absurd hv (by simp)
      · rw [hj] at hv
        exact ⟨v0, rfl, by simpa using hv.symm⟩
    obtain ⟨w0, hw0, hwr⟩ : ∃ w0,
        ((TS_iter closes atr m p n (n - 1)).buy[i + 2]?).join = some w0 ∧
          w = roundn4 w0 := by
      rcases hj : ((TS_iter closes atr m p n (n - 1)).buy[i + 2]?).join with _ | w0
      · rw [hj] at hw
        exact absurd hw (by simp)
      · rw [hj] at hw
        exact ⟨w0, rfl, by simpa using hw.symm⟩
    have hin : i + 2 ≤ n - 1 := by
      by_contra hgt
      rw [(hblank (n - 1) (i + 2) (Or.inr (by omega))).2] at hw0
      exact absurd hw0 (by simp)
    have hst1 : ((TS_iter closes atr m p n (i + 1)).buy[i + 1]?).join = some v0 := by
      rw [(hstable (i + 1) (i + 1) (le_refl _) (n - 1) (by omega)).2] at hv0
      exact hv0
    have hst2 : ((TS_iter closes atr m p n (i + 2)).buy[i + 2]?).join = some w0 := by
      rw [(hstable (i + 2) (i + 2) (le_refl _) (n - 1) (by omega)).2] at hw0
      exact hw0
    rw [TS_iter_succ] at hst2
    cases hA : (atr[i + 1]?).join with
    | none =>
      rw [TS_step_skip closes atr m p _ _ hA] at hst2
      rw [(hblank (i + 1) (i + 2) (Or.inr (by omega))).2] at hst2
      exact absurd hst2 (by simp)
    | some a =>
      rw [TS_step_bullish_eq closes atr m p _ _ a hA hb1] at hst2
      have hr : i + 2 < (TS_iter closes atr m p n (i + 1)).buy.length := by
        rw [(hlens (i + 1)).2]
        omega
      dsimp only at hst2
      rw [List.getElem?_set_self hr] at hst2
      have hnew : buyNewAt closes m a p (TS_iter closes atr m p n (i + 1)) (i + 1)
          = some w0 := hst2
      unfold buyNewAt at hnew
      rw [hst1] at hnew
      rw [hvr, hwr]
      exact roundn4_mono (omin2_some_ge hnew)
  · -- flip to bullish exactly on next Close at most the written SellStop
    intro i hb
    rw [TS_iter_succ]
    cases hA : (atr[i]?).join with
    | none =>
      rw [TS_step_skip closes atr m p _ _ hA, hb,
        (hblank i (i + 1) (Or.inr (by omega))).1, oLeB_none_right]
      simp
    | some a =>
      rw [TS_step_bearish_eq closes atr m p _ _ a hA hb]
      dsimp only
      by_cases hrange : i + 1 < n
      · have hr : i + 1 < (TS_iter closes atr m p n i).sell.length := by
          rw [(hlens i).1]
          exact hrange
        rw [List.getElem?_set_self hr]
        show (! oLeB ((closes[i + 1]?).join)
            (sellNewAt closes m a p (TS_iter closes atr m p n i) i)) = false ↔
          oLeB ((closes[i + 1]?).join)
            (sellNewAt closes m a p (TS_iter closes atr m p n i) i) = true
        cases oLeB ((closes[i + 1]?).join)
            (sellNewAt closes m a p (TS_iter closes atr m p n i) i) <;> simp
      · have hclose : (closes[i + 1]?) = none :=
          List.getElem?_eq_none (by omega)
        have hcell : (((TS_iter closes atr m p n i).sell.set (i + 1)
            (sellNewAt closes m a p (TS_iter closes atr m p n i) i))[i + 1]?) = none := by
          apply List.getElem?_eq_none
          rw [List.length_set, (hlens i).1]
          omega
        rw [hcell, hclose, oLeB_join_none_left, oLeB_join_none_left]
        simp
  · -- flip to bearish exactly on next Close at least the written BuyStop
    intro i hb
    rw [TS_iter_succ]
    cases hA : (atr[i]?).join with
    | none =>
      rw [TS_step_skip closes atr m p _ _ hA, hb,
        (hblank i (i + 1) (Or.inr (by omega))).2, oGeB_none_right]
    | some a =>
      rw [TS_step_bullish_eq closes atr m p _ _ a hA hb]
      dsimp only
      by_cases hrange : i + 1 < n
      · have hr : i + 1 < (TS_iter closes atr m p n i).buy.length := by
          rw [(hlens i).2]
          exact hrange
        rw [List.getElem?_set_self hr]
        show oGeB ((closes[i + 1]?).join)
            (buyNewAt closes m a p (TS_iter closes atr m p n i) i) = true ↔
          oGeB ((closes[i + 1]?).join)
            (buyNewAt closes m a p (TS_iter closes atr m p n i) i) = true
        exact Iff.rfl
      · have hclose : (closes[i + 1]?) = none :=
          List.getElem?_eq_none (by omega)
        have hcell : (((TS_iter closes atr m p n i).buy.set (i + 1)
            (buyNewAt closes m a p (TS_iter closes atr m p n i) i))[i + 1]?) = none := by
          apply List.getElem?_eq_none
          rw [List.length_set, (hlens i).2]
          omega
        rw [hcell, hclose, oGeB_join_none_left, oGeB_join_none_left]

/-- C6: the TrailingStops stop-ratchet invariant, for every quote frame
whose Close column has one cell per index row and every ATR dependency
frame.  While the regime is bearish, consecutive populated SellStops
cells of the returned frame are non-decreasing (each new stop is the
maximum of the fresh candidate and the previous stop, and the fixed
rounding applied on return is monotone); while bullish, consecutive
populated BuyStops cells are non-increasing; and after a bearish
iteration the regime is bullish exactly when the next Close is at most
the SellStop the iteration just wrote, after a bullish iteration it is
bearish exactly when the next Close is at least the BuyStop it just
wrote (iterations whose ATR cell is undefined change nothing). -/
theorem c6_trailing_stops (q atrFr : Frame) (m : ℚ) (p : ℕ)
    (hlen : (fieldCol q "Close").length = q.index.length) :
    C6Concl q atrFr m p := by
  obtain ⟨h1, h2, h3, h4⟩ := TS_loop_invariants (fieldCol q "Close")
    ((getNums atrFr "ATR").getD []) m p q.index.length hlen
  refine ⟨?_, ?_, ?_, ?_⟩
  · intro i v w hb hb1 hv hw
    rw [TS_body_sell_col] at hv hw
    exact h1 i v w hb hb1 hv hw
  · intro i v w hb hb1 hv hw
    rw [TS_body_buy_col] at hv hw
    exact h2 i v w hb hb1 hv hw
  · exact h3
  · exact h4

/-- Witness for C6: four flat-Close bars with a constant ATR frame,
multiplier 1 and period 1, exercising both regimes. -/
theorem c6_trailing_stops_witness :
    (fieldCol (mkOHLC [0, 1, 2, 3] [10, 10, 10, 10] [10, 10, 10, 10]
        [10, 10, 10, 10] [10, 10, 10, 10] [1, 1, 1, 1]) "Close").length
      = (mkOHLC [0, 1, 2, 3] [10, 10, 10, 10] [10, 10, 10, 10]
        [10, 10, 10, 10] [10, 10, 10, 10] [1, 1, 1, 1]).index.length ∧
    C6Concl (mkOHLC [0, 1, 2, 3] [10, 10, 10, 10] [10, 10, 10, 10]
        [10, 10, 10, 10] [10, 10, 10, 10] [1, 1, 1, 1])
      (mkField "ATR" [0, 1, 2, 3] [1, 1, 1, 1]) 1 1 :=
  ⟨rfl,
   c6_trailing_stops (mkOHLC [0, 1, 2, 3] [10, 10, 10, 10] [10, 10, 10, 10]
        [10, 10, 10, 10] [10, 10, 10, 10] [1, 1, 1, 1])
      (mkField "ATR" [0, 1, 2, 3] [1, 1, 1, 1]) 1 1 rfl⟩

/-- Witness for C1: a cold cache, a concrete EMA handle and a one-row
quote frame. -/
theorem c1_transitive_persist_witness :
    (∀ d ∈ ((Runner.ema 2 "Close") :: depClosure (.ema 2 "Close")),
        emptyStore (pathOf ["r"] d "X") = none) ∧
    C1Concl (.ema 2 "Close") ["r"] emptyStore "X" (mkField "Close" [0] [5]) :=
  ⟨fun d _ => rfl,
   c1_transitive_persist (.ema 2 "Close") ["r"] emptyStore "X"
     (mkField "Close" [0] [5]) (fun d _ => rfl)⟩

end PoorTrader
